import Mathlib

/-!
Verification of the IOC-Intel preference-persistence and IOC-classification
pipeline against its natural-language specification.

The development shallowly embeds the TypeScript sources:
* character/string helpers and the regular-expression patterns of
  src/lib/IOC/ioc-utils.ts (the patterns are embedded as abstract-syntax
  values of a tiny verified regular-expression engine whose matcher is
  proved sound and complete with respect to the usual language semantics);
* the flag tree and its resolver getFlagValue;
* the clipboard/action resolution of handleCopyToClipboard,
  the url branch of the five-argument executeIOCIntel, the async
  executeIOCIntel and the background runtime-message handler;
* the persisted-object reconciliation of PreferencesState
  (forEachUrls url filtering plus cleanObject against defaultPreferences;
  cleanObject itself ships outside the provided sources and is modelled
  from the specification, as is the debounce helper).

JavaScript strings are modelled as Lean String (lists of characters);
the JS-specific pieces (toLowerCase, trim, \s) are modelled on the
code-point ranges exercised by this program.
-/

set_option maxRecDepth 10000

/-- JS whitespace (the \s class and the set trimmed by String.prototype.trim). -/
def isJsWs (c : Char) : Bool :=
  c == ' ' || c == '\t' || c == '\n' || c == '\r' || c == '\x0b' || c == '\x0c' ||
  c == '\u00A0' || c == '\u1680' || ('\u2000' ≤ c && c ≤ '\u200A') ||
  c == '\u2028' || c == '\u2029' || c == '\u202F' || c == '\u205F' ||
  c == '\u3000' || c == '\uFEFF'

/-- JS String.prototype.toLowerCase, restricted to the basic Latin letters
this program manipulates (all other characters are returned unchanged). -/
def jsToLower (c : Char) : Char :=
  if 'A' ≤ c && c ≤ 'Z' then Char.ofNat (c.toNat + 32) else c

/-- Removal of every square bracket, i.e. the composition
String.replaceAll of the bracket characters with the empty string. -/
def stripB (l : List Char) : List Char :=
  (l.filter (fun c => !(c == '['))).filter (fun c => !(c == ']'))

/-- JS String.prototype.trim on a character list. -/
def trimL (l : List Char) : List Char :=
  ((l.dropWhile isJsWs).reverse.dropWhile isJsWs).reverse

/-- normaliseString (src/lib/IOC/ioc-utils.ts): strip square brackets,
trim whitespace, lowercase. -/
def normaliseString (s : String) : String :=
  ⟨(trimL (stripB s.data)).map jsToLower⟩

/-- JS lastIndexOf for a single character: index of the last occurrence,
-1 when the character is absent. -/
def lastIdx (c : Char) : List Char → Int
  | [] => -1
  | x :: xs =>
      let r := lastIdx c xs
      if 0 ≤ r then r + 1 else if x == c then 0 else -1

/-! ## A small regular-expression engine

The source patterns are JS regexes; they are embedded as values of the
abstract syntax below and matched with Brzozowski derivatives.  The matcher
is proved equivalent to the standard language semantics, so the theorems
can switch between executable matching and declarative reasoning. -/

/-- Regular expressions over characters.  A positive character class lists
the characters it accepts; a negative class accepts any character for which
its predicate is false (needed for the JS classes of the url pattern
written with a leading caret). -/
inductive Rx where
  | emp : Rx
  | eps : Rx
  | cls : List Char → Rx
  | ncls : (Char → Bool) → Rx
  | cat : Rx → Rx → Rx
  | alt : Rx → Rx → Rx
  | star : Rx → Rx

/-- Language semantics of the regular expressions. -/
inductive RMatch : Rx → List Char → Prop where
  | eps : RMatch .eps []
  | cls {c : Char} {cs : List Char} : c ∈ cs → RMatch (.cls cs) [c]
  | ncls {c : Char} {p : Char → Bool} : p c = false → RMatch (.ncls p) [c]
  | cat {r s : Rx} {u v : List Char} :
      RMatch r u → RMatch s v → RMatch (.cat r s) (u ++ v)
  | altL {r s : Rx} {u : List Char} : RMatch r u → RMatch (.alt r s) u
  | altR {r s : Rx} {u : List Char} : RMatch s u → RMatch (.alt r s) u
  | starNil {r : Rx} : RMatch (.star r) []
  | starCat {r : Rx} {u v : List Char} :
      RMatch r u → RMatch (.star r) v → RMatch (.star r) (u ++ v)

/-- Does the expression accept the empty string? -/
def nullable : Rx → Bool
  | .emp => false
  | .eps => true
  | .cls _ => false
  | .ncls _ => false
  | .cat r s => nullable r && nullable s
  | .alt r s => nullable r || nullable s
  | .star _ => true

/-- Concatenation with on-the-fly simplification (keeps derivatives small). -/
def catS : Rx → Rx → Rx
  | .emp, _ => .emp
  | .eps, s => s
  | r, s =>
      match s with
      | .emp => .emp
      | .eps => r
      | s => .cat r s

/-- Alternation with on-the-fly simplification. -/
def altS : Rx → Rx → Rx
  | .emp, s => s
  | r, s =>
      match s with
      | .emp => r
      | s => .alt r s

/-- Brzozowski derivative with respect to one character. -/
def rderiv : Rx → Char → Rx
  | .emp, _ => .emp
  | .eps, _ => .emp
  | .cls cs, c => if c ∈ cs then .eps else .emp
  | .ncls p, c => if p c then .emp else .eps
  | .cat r s, c =>
      if nullable r then altS (catS (rderiv r c) s) (rderiv s c)
      else catS (rderiv r c) s
  | .alt r s, c => altS (rderiv r c) (rderiv s c)
  | .star r, c => catS (rderiv r c) (.star r)

/-- The executable matcher (the JS RegExp.prototype.test of an anchored
pattern). -/
def rmatch (r : Rx) : List Char → Bool
  | [] => nullable r
  | c :: s => rmatch (rderiv r c) s

/-- A conservative syntactic check: when it returns true, every string in
the language of the expression contains the given character. -/
def mustContain (c : Char) : Rx → Bool
  | .emp => true
  | .eps => false
  | .cls cs => cs.all (· == c)
  | .ncls _ => false
  | .cat r s => mustContain c r || mustContain c s
  | .alt r s => mustContain c r && mustContain c s
  | .star _ => false

/-! Combinator shorthands used to transcribe the source patterns. -/

/-- Single literal character. -/
def chr (c : Char) : Rx := .cls [c]

/-- Optional occurrence (the regex question mark). -/
def opt (r : Rx) : Rx := .alt .eps r

/-- Exactly n copies in sequence. -/
def repN (r : Rx) : Nat → Rx
  | 0 => .eps
  | n + 1 => .cat r (repN r n)

/-- Between lo and hi copies, written r^lo (r?)^(hi-lo). -/
def repRange (r : Rx) (lo hi : Nat) : Rx :=
  .cat (repN r lo) (repN (opt r) (hi - lo))

/-- At least one copy (the regex plus). -/
def plus (r : Rx) : Rx := .cat r (.star r)

/-- At least n copies. -/
def repAtLeast (r : Rx) (n : Nat) : Rx := .cat (repN r n) (.star r)

/-- Sequence of several expressions. -/
def rcat (rs : List Rx) : Rx := rs.foldr Rx.cat .eps

/-- Case-insensitive literal (each Latin letter accepts both cases),
for patterns carrying the i flag. -/
def litCI (s : String) : Rx :=
  rcat (s.data.map (fun c =>
    if 'a' ≤ c && c ≤ 'z' then Rx.cls [c, Char.ofNat (c.toNat - 32)] else chr c))

/-- Union of several alternatives. -/
def ralt (rs : List Rx) : Rx := rs.foldr Rx.alt .emp

/-- The inclusive character range from lo to hi. -/
def rangeC (lo hi : Char) : List Char :=
  (List.range (hi.toNat + 1 - lo.toNat)).map (fun i => Char.ofNat (lo.toNat + i))

/-- The decimal digits (the regex class \d and [0-9]). -/
def digitC : Rx := .cls (rangeC '0' '9')

/-- The characters of the hex-digit class [a-f0-9] of a pattern carrying
the i flag. -/
def hexCs : List Char := rangeC 'a' 'f' ++ rangeC '0' '9' ++ rangeC 'A' 'F'

/-- The hex-digit class [a-f0-9] of a pattern carrying the i flag. -/
def hexC : Rx := .cls hexCs

/-! ## The source regex patterns (src/lib/IOC/ioc-utils.ts) -/

/-- One decimal octet: 25[0-5]|2[0-4][0-9]|[01]?[0-9][0-9]? -/
def octet : Rx :=
  ralt [rcat [chr '2', chr '5', .cls (rangeC '0' '5')],
        rcat [chr '2', .cls (rangeC '0' '4'), digitC],
        rcat [opt (.cls ['0', '1']), digitC, opt digitC]]

/-- IPV4_PATTERN: four dot-separated octets, anchored. -/
def IPV4_PATTERN : Rx := .cat octet (repN (.cat (chr '.') octet) 3)

/-- A hex group [a-f0-9]{1,4} of the IPv6 pattern. -/
def h14 : Rx := repRange hexC 1 4

/-- The octet variant used inside the IPv6 pattern:
25[0-5]|(2[0-4]|1{0,1}[0-9]){0,1}[0-9] -/
def octetB : Rx :=
  .alt (rcat [chr '2', chr '5', .cls (rangeC '0' '5')])
    (.cat (opt (.alt (.cat (chr '2') (.cls (rangeC '0' '4')))
                     (.cat (opt (chr '1')) digitC)))
          digitC)

/-- A dotted quad ((octetB)\.){3,3}(octetB) inside the IPv6 pattern. -/
def ip4dotted : Rx := .cat (repN (.cat octetB (chr '.')) 3) octetB

/-- IPV6_PATTERN (carries the i flag): the twelve alternatives of the
source regex, transcribed in order. -/
def IPV6_PATTERN : Rx :=
  ralt
    [.cat (repN (.cat h14 (chr ':')) 7) h14,
     .cat (repRange (.cat h14 (chr ':')) 1 7) (chr ':'),
     rcat [repRange (.cat h14 (chr ':')) 1 6, chr ':', h14],
     .cat (repRange (.cat h14 (chr ':')) 1 5) (repRange (.cat (chr ':') h14) 1 2),
     .cat (repRange (.cat h14 (chr ':')) 1 4) (repRange (.cat (chr ':') h14) 1 3),
     .cat (repRange (.cat h14 (chr ':')) 1 3) (repRange (.cat (chr ':') h14) 1 4),
     .cat (repRange (.cat h14 (chr ':')) 1 2) (repRange (.cat (chr ':') h14) 1 5),
     rcat [h14, chr ':', repRange (.cat (chr ':') h14) 1 6],
     .cat (chr ':') (.alt (repRange (.cat (chr ':') h14) 1 7) (chr ':')),
     rcat [litCI "fe80", chr ':', repN (opt (.cat (chr ':') (repRange hexC 0 4))) 4,
           chr '%', plus (.cls (rangeC '0' '9' ++ rangeC 'a' 'z' ++ rangeC 'A' 'Z'))],
     rcat [chr ':', chr ':',
           opt (rcat [litCI "ffff", opt (.cat (chr ':') (repRange (chr '0') 1 4)), chr ':']),
           ip4dotted],
     rcat [repRange (.cat h14 (chr ':')) 1 4, chr ':', ip4dotted]]

/-- HASH_PATTERN (carries the i flag): 32, 40 or 64 hex characters. -/
def HASH_PATTERN : Rx := ralt [repN hexC 32, repN hexC 40, repN hexC 64]

/-- The scheme prefix https?:\/\/ (case-insensitive). -/
def schemeRx : Rx := rcat [litCI "http", opt (.cls ['s', 'S']), chr ':', chr '/', chr '/']

/-- A character of the userinfo classes [^\s:@\/]. -/
def userC : Rx := .ncls (fun c => isJsWs c || c == ':' || c == '@' || c == '/')

/-- FULL_URL_PATTERN (carries the i flag): optional scheme, optional
userinfo, dotted host with at least a two-letter label, optional port,
path, query and fragment. -/
def FULL_URL_PATTERN : Rx :=
  rcat
    [opt schemeRx,
     opt (rcat [plus userC, opt (.cat (chr ':') (.star userC)), chr '@']),
     .cat (plus (.cat (plus (.cls (rangeC 'a' 'z' ++ rangeC '0' '9' ++ ['-'] ++ rangeC 'A' 'Z')))
                      (chr '.')))
          (repAtLeast (.cls (rangeC 'a' 'z' ++ rangeC 'A' 'Z')) 2),
     opt (.cat (chr ':') (repRange digitC 2 5)),
     opt (.cat (chr '/') (.star (.ncls isJsWs))),
     opt (.cat (chr '?') (.star (.ncls (fun c => isJsWs c || c == '#')))),
     opt (.cat (chr '#') (.star (.ncls isJsWs)))]

/-! ## The classifier functions (src/lib/IOC/ioc-utils.ts) -/

/-- isValidUrl: normalise, reject the empty string, test FULL_URL_PATTERN. -/
def isValidUrl (input : String) : Bool :=
  if (normaliseString input).data.isEmpty then false
  else rmatch FULL_URL_PATTERN (normaliseString input).data

/-- detectIOCType: normalise, then test the patterns in precedence order
IPv4/IPv6, hash, url; null when nothing matches. -/
def detectIOCType (s : String) : Option String :=
  if (normaliseString s).data.isEmpty then none
  else if rmatch IPV4_PATTERN (normaliseString s).data ||
          rmatch IPV6_PATTERN (normaliseString s).data then
    some "ip"
  else if rmatch HASH_PATTERN (normaliseString s).data then some "hash"
  else if rmatch FULL_URL_PATTERN (normaliseString s).data then some "url"
  else none

/-- normaliseUrl: prepend https:// unless the string already starts with
http:// or https:// (the source tests the unanchored regex ^https?:\/\|/i,
i.e. a prefix match). -/
def normaliseUrl (input : String) : String :=
  if !(rmatch (.cat schemeRx (.star (.ncls (fun _ => false)))) input.data) then
    "https://" ++ input
  else input

/-- sanitiseIP: replace the last dot or colon (whichever occurs later)
with its bracketed form. -/
def sanitiseIP (ip : String) : String :=
  let lastDot := lastIdx '.' ip.data
  let lastColon := lastIdx ':' ip.data
  if lastColon < lastDot then
    ⟨ip.data.take lastDot.toNat ++ '[' :: '.' :: ']' :: ip.data.drop (lastDot.toNat + 1)⟩
  else if -1 < lastColon then
    ⟨ip.data.take lastColon.toNat ++ '[' :: ':' :: ']' :: ip.data.drop (lastColon.toNat + 1)⟩
  else ip

/-- sanitiseURL: replace every dot with the bracketed form
(url.replace of the global dot regex). -/
def sanitiseURL (url : String) : String :=
  ⟨url.data.foldr (fun c acc => if c == '.' then '[' :: '.' :: ']' :: acc else c :: acc) []⟩

/-! ## Flags and the flag-tree resolver (src/lib/IOC/ioc-utils.ts) -/

/-- A user preference flag: name, boolean value, optional sub-flags. -/
inductive PFlag where
  | mk : String → Bool → Option (List PFlag) → PFlag

/-- Name of a flag. -/
def PFlag.name : PFlag → String
  | .mk n _ _ => n

/-- Boolean value of a flag. -/
def PFlag.value : PFlag → Bool
  | .mk _ v _ => v

/-- Sub-flags of a flag (absent when the source object has none). -/
def PFlag.subFlags : PFlag → Option (List PFlag)
  | .mk _ _ s => s

/-- Loop body of getFlagValue.  lastN is path[path.length - 1], computed
once from the whole path; cur is the possibly-undefined current level. -/
def goFlag (lastN : Option String) : Option (List PFlag) → List String → Option Bool
  | _, [] => none
  | cur, n :: rest =>
    match cur.bind (List.find? (fun f => f.name == n)) with
    | none => none
    | some f => if lastN == some n then some f.value else goFlag lastN f.subFlags rest

/-- getFlagValue: walk the path, matching the first sibling with the
current name; return the value upon reaching the last path element. -/
def getFlagValue (flags : List PFlag) (path : List String) : Option Bool :=
  goFlag path.getLast? (some flags) path

/-! ## Clipboard resolution -/

/-- handleCopyToClipboard (src/lib/IOC/ioc-utils.ts), as the string
written to the clipboard collaborator (none when nothing is copied). -/
def handleCopyToClipboard (ioc : String) (flags : List PFlag) : Option String :=
  match detectIOCType ioc with
  | none => none
  | some iocType =>
    let shouldCopy : Bool :=
      if iocType == "ip" then (getFlagValue flags ["Copy IP"]).getD false
      else if iocType == "hash" then (getFlagValue flags ["Copy Hash"]).getD false
      else (getFlagValue flags ["Copy URL"]).getD false
    let shouldSanitise : Bool :=
      if iocType == "ip" then (getFlagValue flags ["Copy IP", "Sanitise IP"]).getD false
      else if iocType == "hash" then false
      else (getFlagValue flags ["Copy URL", "Sanitise URL"]).getD false
    if !shouldCopy then none
    else
      some (if shouldSanitise then
              (if iocType == "ip" then sanitiseIP ioc else sanitiseURL ioc)
            else ioc)

set_option linter.unusedVariables false in
/-- The url case of the five-argument executeIOCIntel
(src/lib/IOC/execute-IOC-Intel.ts), as the string written to the
clipboard collaborator.  The source computes toCopy (with the optional
dot sanitisation) but then passes normalisedUrl to copyToClipboard;
the dead computation is kept to mirror the source. -/
def exec5UrlClipboard (normalisedIOC : String) (flags : List PFlag) : Option String :=
  let normalisedUrl := normaliseUrl normalisedIOC
  if rmatch FULL_URL_PATTERN normalisedUrl.data = false then none
  else if (getFlagValue flags ["Copy URL"]).getD false then
    let toCopy :=
      if (getFlagValue flags ["Copy URL", "Sanitise URL"]).getD false then
        sanitiseURL normalisedIOC
      else normalisedIOC
    some normalisedUrl
  else none

/-! ## Untyped persisted values

Persisted storage carries JSON-like objects; the load/save pipeline
manipulates them before they are reconciled into the typed shape. -/

/-- A JSON-like value, as handled by the storage pipeline. -/
inductive JsVal where
  | str : String → JsVal
  | boolV : Bool → JsVal
  | num : Int → JsVal
  | nullV : JsVal
  | arr : List JsVal → JsVal
  | obj : List (String × JsVal) → JsVal

/-- First field of an object field list with the given key
(JS property access; parsed JSON objects have unique keys). -/
def lookupField : List (String × JsVal) → String → Option JsVal
  | [], _ => none
  | (k, v) :: fs, key => if k == key then some v else lookupField fs key

/-- Property access on an arbitrary value (none off objects). -/
def jsGet (v : JsVal) (key : String) : Option JsVal :=
  match v with
  | .obj fs => lookupField fs key
  | _ => none

/-! ## URL-template resolution and the investigation pipeline -/

/-- JS String.prototype.replace with a plain-string pattern: replaces
only the first occurrence (the templates placeholders are non-empty). -/
def replaceOnceL (pat rep : List Char) : List Char → List Char
  | [] => []
  | c :: cs =>
      if pat.isPrefixOf (c :: cs) then rep ++ (c :: cs).drop pat.length
      else c :: replaceOnceL pat rep cs

/-- String form of replaceOnceL. -/
def jsReplace (s pat rep : String) : String := ⟨replaceOnceL pat.data rep.data s.data⟩

/-- An uppercase hex digit of a percent escape. -/
def hexDigitU (n : Nat) : Char :=
  if n < 10 then Char.ofNat ('0'.toNat + n) else Char.ofNat ('A'.toNat + n - 10)

/-- Characters left unescaped by encodeURIComponent. -/
def isEncUnreserved (c : Char) : Bool :=
  ('A' ≤ c && c ≤ 'Z') || ('a' ≤ c && c ≤ 'z') || ('0' ≤ c && c ≤ '9') ||
  c == '-' || c == '_' || c == '.' || c == '!' || c == '~' || c == '*' ||
  c == '\x27' || c == '(' || c == ')'

/-- The encodeURIComponent host builtin, modelled on the ASCII range the
url templates use (other characters pass through). -/
def encodeURIComponent (s : String) : String :=
  ⟨s.data.foldr
    (fun c acc =>
      if isEncUnreserved c then c :: acc
      else '%' :: hexDigitU (c.toNat / 16) :: hexDigitU (c.toNat % 16) :: acc) []⟩

/-- The hostname component of the host URL parser (an external
collaborator), modelled for the well-formed http(s) URLs this program
builds: the authority after the scheme and userinfo, cut at the first
port/path/query/fragment delimiter, lowercased. -/
def urlHostname (s : String) : String :=
  let afterScheme :=
    if ("https://".data).isPrefixOf s.data then s.data.drop 8
    else if ("http://".data).isPrefixOf s.data then s.data.drop 7
    else s.data
  let authority := afterScheme.takeWhile (fun c => !(c == '/' || c == '?' || c == '#'))
  let host := if authority.contains '@' then (authority.dropWhile (fun c => !(c == '@'))).drop 1 else authority
  ⟨(host.takeWhile (fun c => !(c == ':'))).map jsToLower⟩

/-- processUrlTemplate (src/lib/IOC/ioc-utils.ts): substitute the
type-specific placeholders, then re-normalise the whole result. -/
def processUrlTemplate (templateUrl ioc : String) : String :=
  let iocType := detectIOCType ioc
  let processedUrl :=
    match iocType with
    | some "ip" => jsReplace templateUrl "{ip}" ioc
    | some "hash" => jsReplace templateUrl "{hash}" ioc
    | some "url" =>
        let normalisedUrl := normaliseUrl ioc
        jsReplace (jsReplace (jsReplace templateUrl "{url}" normalisedUrl)
            "{encodedUrl}" (encodeURIComponent normalisedUrl))
          "{domain}" (urlHostname normalisedUrl)
    | _ => templateUrl
  normaliseUrl processedUrl

/-- A host side effect of the investigation pipeline. -/
inductive Effect where
  | clip : String → Effect
  | tab : String → Nat → Effect
deriving DecidableEq

/-! ## The typed configuration (src/lib/storage/default-preferences.ts) -/

/-- Per-IOC-type definition. -/
structure IOCDefinition where
  name : String
  active : Bool
  flags : List PFlag
  urls : List String
  version : Int

/-- The configuration: IOC type key to definition. -/
abbrev Prefs : Type := List (String × IOCDefinition)

/-- defaultPreferences (src/lib/storage/default-preferences.ts). -/
def defaultPreferences : Prefs :=
  [("ip",
    { name := "IP", active := true,
      flags := [PFlag.mk "Copy IP" true (some [PFlag.mk "Sanitise IP" true none])],
      urls := ["abuseipdb.com/check/{ip}",
               "threatfox.abuse.ch/browse.php?search=ioc%3A{ip}",
               "shodan.io/host/{ip}"],
      version := 2 }),
   ("hash",
    { name := "Hash", active := true,
      flags := [PFlag.mk "Copy Hash" true none],
      urls := ["virustotal.com/gui/file/{hash}",
               "urlhaus.abuse.ch/browse.php?search={hash}"],
      version := 2 }),
   ("url",
    { name := "URL", active := true,
      flags := [PFlag.mk "Copy URL" true (some [PFlag.mk "Sanitise URL" true none])],
      urls := ["urlhaus.abuse.ch/browse.php?search={encodedUrl}",
               "mxtoolbox.com/SuperTool.aspx?action=whois%3a{domain}",
               "virustotal.com/gui/domain/{domain}"],
      version := 2 })]

/-- First definition stored under a key (JS property access on the
preferences object). -/
def lookupPref : Prefs → String → Option IOCDefinition
  | [], _ => none
  | (k, d) :: ps, key => if k == key then some d else lookupPref ps key

/-- Key set of a configuration. -/
def keysOf (p : Prefs) : List String := p.map Prod.fst

/-- The async executeIOCIntel (src/lib/IOC/execute-IOC-Intel.ts), given
the loaded preferences snapshot and the host tab-insertion index:
returns the resolved boolean together with the host side effects. -/
def executeIOCIntelRun (prefs : Prefs) (startIndex : Nat) (normalisedIOC : String) :
    Bool × List Effect :=
  let iocType := (detectIOCType normalisedIOC).getD "unknown"
  match lookupPref prefs iocType with
  | none => (false, [])
  | some typePrefs =>
    if !typePrefs.active then (false, [])
    else
      let clipEffects :=
        match handleCopyToClipboard normalisedIOC typePrefs.flags with
        | some s => [Effect.clip s]
        | none => []
      let tabEffects :=
        typePrefs.urls.enum.map
          (fun iu => Effect.tab (processUrlTemplate iu.2 normalisedIOC) (startIndex + iu.1))
      (true, clipEffects ++ tabEffects)

/-- Is the action field the string executeIOCIntel?  (The source tests
msg.action !== the literal.) -/
def msgActionOk (fs : List (String × JsVal)) : Bool :=
  match lookupField fs "action" with
  | some (.str a) => a == "executeIOCIntel"
  | _ => false

/-- The IOC field when it is a string (the source tests
typeof msg.IOC === the string tag). -/
def msgIOC (fs : List (String × JsVal)) : Option String :=
  match lookupField fs "IOC" with
  | some (.str s) => some s
  | _ => none

/-- handleRuntimeMessage (the background runtime-message listener):
validates the incoming message shape and only then normalises and
executes the IOC; every other message resolves to false with no
side effect. -/
def handleRuntimeMessage (prefs : Prefs) (startIndex : Nat) (message : JsVal) :
    Bool × List Effect :=
  match message with
  | .obj fs =>
      match msgActionOk fs, msgIOC fs with
      | true, some ioc => executeIOCIntelRun prefs startIndex (normaliseString ioc)
      | _, _ => (false, [])
  | _ => (false, [])
/-! ## The load/save reconciliation pipeline
(PreferencesState loadState/saveState) -/

/-- Lowercased key, as compared by forEachUrls. -/
def kLower (s : String) : String := ⟨s.data.map jsToLower⟩

/-- The filter the load/save paths apply to each urls array entry:
the persisted urls arrays are arrays of strings and the callback keeps
the entries isValidUrl accepts. -/
def urlKeep : JsVal → Bool
  | .str s => isValidUrl s
  | _ => false

mutual

/-- forEachUrls (src/lib/IOC/ioc-utils.ts) composed with the filtering
callback of loadState/saveState, as a pure transformation: every array
stored under a key whose lowercase form is urls is filtered with
urlKeep; everything else is traversed recursively.  (The source filters
first and then traverses the filtered array, whose elements are plain
strings, which the traversal leaves unchanged.) -/
def fvTraverse : JsVal → JsVal
  | .arr xs => .arr (fvTraverseList xs)
  | .obj fs => .obj (fvTraverseFields fs)
  | v => v

/-- Traversal of array elements. -/
def fvTraverseList : List JsVal → List JsVal
  | [] => []
  | x :: xs => fvTraverse x :: fvTraverseList xs

/-- Traversal of the fields of an object. -/
def fvTraverseFields : List (String × JsVal) → List (String × JsVal)
  | [] => []
  | (k, .arr ys) :: fs =>
      (k, .arr (if kLower k == "urls" then ys.filter urlKeep else fvTraverseList ys)) ::
        fvTraverseFields fs
  | (k, v) :: fs => (k, fvTraverse v) :: fvTraverseFields fs

end

/-- The raw flag object matching a default flag name (the by-name flag
reconciliation of the specification, §4.2/§4.3). -/
def findFlagObj (r : Option (List JsVal)) (n : String) : Option JsVal :=
  r.bind (List.find? (fun v =>
    match jsGet v "name" with
    | some (.str m) => m == n
    | _ => false))

mutual

/-- Modelled from the spec: one step of the flag-tree reconciliation of
cleanObject (src/lib/storage/clean-object, not among the provided
sources).  The output mirrors the default flag: the value is taken from
the raw flag of the same name when it is a boolean, the sub-flags are
reconciled recursively, and flags unknown to the defaults are dropped. -/
def cleanFlag (r : Option (List JsVal)) : PFlag → PFlag
  | .mk n dv dsub =>
    let rf := findFlagObj r n
    .mk n
      (match rf.bind (fun v => jsGet v "value") with
       | some (.boolV b) => b
       | _ => dv)
      (match dsub with
       | none => none
       | some ds =>
           some (cleanFlags
             (match rf.bind (fun v => jsGet v "subFlags") with
              | some (.arr xs) => some xs
              | _ => none) ds))

/-- Modelled from the spec: flag-list reconciliation, one default flag
at a time. -/
def cleanFlags (r : Option (List JsVal)) : List PFlag → List PFlag
  | [] => []
  | d :: ds => cleanFlag r d :: cleanFlags r ds

end

/-- Modelled from the spec: reconciliation of one IOCDefinition.
Scalar and array fields are taken from the raw entry where present and
well-typed, otherwise from the default (§4.2; the open question of §9 is
resolved as fall back to default). -/
def cleanIOCDef (rv : Option JsVal) (d : IOCDefinition) : IOCDefinition :=
  { name :=
      match rv.bind (fun v => jsGet v "name") with
      | some (.str s) => s
      | _ => d.name
    active :=
      match rv.bind (fun v => jsGet v "active") with
      | some (.boolV b) => b
      | _ => d.active
    flags :=
      cleanFlags
        (match rv.bind (fun v => jsGet v "flags") with
         | some (.arr xs) => some xs
         | _ => none) d.flags
    urls :=
      match rv.bind (fun v => jsGet v "urls") with
      | some (.arr xs) =>
          xs.filterMap (fun x => match x with | .str s => some s | _ => none)
      | _ => d.urls
    version :=
      match rv.bind (fun v => jsGet v "version") with
      | some (.num n) => n
      | _ => d.version }

/-- Modelled from the spec: cleanObject (src/lib/storage/clean-object,
not among the provided sources): for every key of the defaults produce a
reconciled entry; keys of the raw object absent from the defaults are
dropped (§4.2). -/
def cleanObject (raw : JsVal) (defaults : Prefs) : Prefs :=
  defaults.map (fun kd => (kd.1, cleanIOCDef (jsGet raw kd.1) kd.2))

/-- The load-path (and save-path) reconciliation: in-place urls
filtering followed by cleanObject against defaultPreferences. -/
def reconcile (raw : JsVal) : Prefs := cleanObject (fvTraverse raw) defaultPreferences

mutual

/-- A flag as the persisted JSON object (subFlags omitted when absent). -/
def flagToJs : PFlag → JsVal
  | .mk n v none => .obj [("name", .str n), ("value", .boolV v)]
  | .mk n v (some l) =>
      .obj [("name", .str n), ("value", .boolV v), ("subFlags", .arr (flagsToJs l))]

/-- A flag list as persisted JSON values. -/
def flagsToJs : List PFlag → List JsVal
  | [] => []
  | f :: fs => flagToJs f :: flagsToJs fs

end

/-- An IOCDefinition as the persisted JSON object. -/
def iocDefToJs (d : IOCDefinition) : JsVal :=
  .obj [("name", .str d.name), ("active", .boolV d.active),
        ("flags", .arr (flagsToJs d.flags)),
        ("urls", .arr (d.urls.map JsVal.str)),
        ("version", .num d.version)]

/-- The configuration as the persisted JSON object. -/
def prefsToJs (p : Prefs) : JsVal := .obj (p.map (fun kd => (kd.1, iocDefToJs kd.2)))

/-- The reconciliation as an object-to-object map (what the load path
stores and the save path writes). -/
def reconcileJs (raw : JsVal) : JsVal := prefsToJs (reconcile raw)

/-- JS Object.assign of one key (overwrite if present, else append). -/
def setKey (t : Prefs) (k : String) (v : IOCDefinition) : Prefs :=
  if (t.map Prod.fst).contains k then
    t.map (fun kd => if kd.1 == k then (k, v) else kd)
  else t ++ [(k, v)]

/-- JS Object.assign(target, source) on configurations, as performed by
StateManager.load when merging the loaded data into the live state. -/
def objectAssign (target source : Prefs) : Prefs :=
  source.foldl (fun acc kd => setKey acc kd.1 kd.2) target

/-! ### Auxiliary predicates used by the reconciliation theorems -/

/-- Are the names of the list pairwise distinct? -/
def distinctNames : List String → Bool
  | [] => true
  | n :: ns => !(ns.contains n) && distinctNames ns

mutual

/-- Sibling names are distinct at every level below this flag. -/
def ndFlag : PFlag → Bool
  | .mk _ _ none => true
  | .mk _ _ (some l) => distinctNames (l.map PFlag.name) && ndFlags l

/-- Sibling names are distinct below each flag of the list. -/
def ndFlags : List PFlag → Bool
  | [] => true
  | f :: fs => ndFlag f && ndFlags fs

end

/-- Sibling names are distinct at every level of the flag forest. -/
def ndTop (l : List PFlag) : Bool := distinctNames (l.map PFlag.name) && ndFlags l

/-- The condition a value stored under a urls key must meet: arrays
hold only entries that pass the url filter. -/
def urlsOkVal : JsVal → Bool
  | .arr ys => ys.all urlKeep
  | _ => true

mutual

/-- Every array under a urls key holds only valid url strings. -/
def urlsClean : JsVal → Bool
  | .arr xs => urlsCleanList xs
  | .obj fs => urlsCleanFields fs
  | _ => true

/-- urlsClean on every array element. -/
def urlsCleanList : List JsVal → Bool
  | [] => true
  | x :: xs => urlsClean x && urlsCleanList xs

/-- urlsClean on every field, plus the urls-key condition. -/
def urlsCleanFields : List (String × JsVal) → Bool
  | [] => true
  | (k, v) :: fs =>
      (if kLower k == "urls" then urlsOkVal v else true) && urlsClean v && urlsCleanFields fs

end

/-- Every urls list of the configuration passes isValidUrl. -/
def prefsUrlsValid (p : Prefs) : Bool :=
  p.all (fun kd => kd.2.urls.all isValidUrl)

/-! ## The debounced save scheduler -/

/-- Modelled from the spec: the options of the debounce helper
(src/lib/utils/debounce, not among the provided sources). -/
structure DebounceOpts where
  delay : Nat
  maxWait : Nat

/-- Modelled from the spec: the moment a pending burst fires, the
earlier of the trailing deadline (last call plus delay) and the forced
deadline (burst start plus maxWait). -/
def fireTime (o : DebounceOpts) (burstStart lastCall : Nat) : Nat :=
  min (lastCall + o.delay) (burstStart + o.maxWait)

/-- Modelled from the spec: one incoming call at time t against the
pending burst state (burst start, last call).  If the pending burst
already fired no later than t, the fire is emitted and t starts a new
burst; otherwise the trailing timer is reset to t. -/
def debStep (o : DebounceOpts) : Option (Nat × Nat) → Nat → List Nat × Option (Nat × Nat)
  | none, t => ([], some (t, t))
  | some (s, last), t =>
      if fireTime o s last ≤ t then ([fireTime o s last], some (t, t))
      else ([], some (s, t))

/-- Modelled from the spec: run a (time-ordered) list of calls from a
burst state; the trailing burst fires at its fire time. -/
def debRun (o : DebounceOpts) : Option (Nat × Nat) → List Nat → List Nat
  | st, [] =>
      match st with
      | none => []
      | some (s, last) => [fireTime o s last]
  | st, t :: ts =>
      let step := debStep o st t
      step.1 ++ debRun o step.2 ts

/-- Modelled from the spec: the fire times of the debounced saver for a
time-ordered list of save() calls. -/
def debounceFires (o : DebounceOpts) (calls : List Nat) : List Nat := debRun o none calls

/-- Every call of the list arrives strictly before the pending burst
would fire (a single coalesced burst). -/
def singleBurst (o : DebounceOpts) (s : Nat) : Nat → List Nat → Bool
  | _, [] => true
  | last, t :: ts => (decide (t < fireTime o s last)) && singleBurst o s t ts
-- scratch sanity checks (temporary)
/-! # Theorems

First the metatheory of the regular-expression engine: the derivative
matcher agrees with the language semantics. -/

theorem rmatch_emp_iff {l : List Char} : RMatch .emp l ↔ False := by
  constructor
  · intro h; cases h
  · intro h; cases h

theorem rmatch_eps_iff {l : List Char} : RMatch .eps l ↔ l = [] := by
  constructor
  · intro h; cases h; rfl
  · rintro rfl; exact .eps

theorem rmatch_cls_iff {cs l} : RMatch (.cls cs) l ↔ ∃ c, l = [c] ∧ c ∈ cs := by
  constructor
  · intro h; cases h with
    | cls hmem => exact ⟨_, rfl, hmem⟩
  · rintro ⟨c, rfl, hmem⟩; exact .cls hmem

theorem rmatch_ncls_iff {p l} : RMatch (.ncls p) l ↔ ∃ c, l = [c] ∧ p c = false := by
  constructor
  · intro h; cases h with
    | ncls hp => exact ⟨_, rfl, hp⟩
  · rintro ⟨c, rfl, hp⟩; exact .ncls hp

theorem rmatch_cat_iff {r s l} :
    RMatch (.cat r s) l ↔ ∃ u v, l = u ++ v ∧ RMatch r u ∧ RMatch s v := by
  constructor
  · intro h; cases h with
    | cat h1 h2 => exact ⟨_, _, rfl, h1, h2⟩
  · rintro ⟨u, v, rfl, h1, h2⟩; exact .cat h1 h2

theorem rmatch_alt_iff {r s l} : RMatch (.alt r s) l ↔ RMatch r l ∨ RMatch s l := by
  constructor
  · intro h; cases h with
    | altL h => exact Or.inl h
    | altR h => exact Or.inr h
  · rintro (h | h)
    · exact .altL h
    · exact .altR h

theorem rmatch_nil_nullable {r l} (h : RMatch r l) : l = [] → nullable r = true := by
  induction h with
  | eps => intro _; rfl
  | cls _ => intro h; cases h
  | ncls _ => intro h; cases h
  | cat _ _ ih1 ih2 =>
      intro h
      rcases List.append_eq_nil.mp h with ⟨h1, h2⟩
      simp [nullable, ih1 h1, ih2 h2]
  | altL _ ih => intro h; simp [nullable, ih h]
  | altR _ ih => intro h; simp [nullable, ih h]
  | starNil => intro _; rfl
  | starCat _ _ _ _ => intro _; rfl

theorem nullable_iff {r : Rx} : nullable r = true ↔ RMatch r [] := by
  constructor
  · induction r with
    | emp => intro h; cases h
    | eps => intro _; exact .eps
    | cls _ => intro h; cases h
    | ncls _ => intro h; cases h
    | cat r s ih1 ih2 =>
        intro h
        rcases Bool.and_eq_true_iff.mp h with ⟨h1, h2⟩
        simpa using RMatch.cat (ih1 h1) (ih2 h2)
    | alt r s ih1 ih2 =>
        intro h
        rcases Bool.or_eq_true_iff.mp h with h1 | h2
        · exact .altL (ih1 h1)
        · exact .altR (ih2 h2)
    | star r _ => intro _; exact .starNil
  · intro h; exact rmatch_nil_nullable h rfl

theorem rmatch_cat_emp_left {s : Rx} {l : List Char} : RMatch (.cat .emp s) l ↔ False := by
  rw [rmatch_cat_iff]
  constructor
  · rintro ⟨u, v, _, h1, _⟩
    exact (rmatch_emp_iff.mp h1).elim
  · exact fun h => h.elim

theorem rmatch_cat_emp_right {r : Rx} {l : List Char} : RMatch (.cat r .emp) l ↔ False := by
  rw [rmatch_cat_iff]
  constructor
  · rintro ⟨u, v, _, _, h2⟩
    exact (rmatch_emp_iff.mp h2).elim
  · exact fun h => h.elim

theorem rmatch_cat_eps_left {s : Rx} {l : List Char} : RMatch (.cat .eps s) l ↔ RMatch s l := by
  rw [rmatch_cat_iff]
  constructor
  · rintro ⟨u, v, rfl, h1, h2⟩
    rw [rmatch_eps_iff] at h1
    subst h1
    simpa using h2
  · intro h
    exact ⟨[], l, rfl, .eps, h⟩

theorem rmatch_cat_eps_right {r : Rx} {l : List Char} : RMatch (.cat r .eps) l ↔ RMatch r l := by
  rw [rmatch_cat_iff]
  constructor
  · rintro ⟨u, v, rfl, h1, h2⟩
    rw [rmatch_eps_iff] at h2
    subst h2
    simpa using h1
  · intro h
    exact ⟨l, [], by simp, h, .eps⟩

theorem catS_iff (r s : Rx) (l : List Char) :
    RMatch (catS r s) l ↔ RMatch (.cat r s) l := by
  cases r <;> cases s <;>
    simp [catS, rmatch_emp_iff, rmatch_eps_iff, rmatch_cat_emp_left,
      rmatch_cat_emp_right, rmatch_cat_eps_left, rmatch_cat_eps_right]

theorem altS_iff (r s : Rx) (l : List Char) :
    RMatch (altS r s) l ↔ RMatch (.alt r s) l := by
  cases r <;> cases s <;>
    simp [altS, rmatch_alt_iff, rmatch_emp_iff]

theorem star_cons_aux {r0 : Rx} {m : List Char} (h : RMatch r0 m) :
    ∀ {r : Rx} {c : Char} {l : List Char}, r0 = .star r → m = c :: l →
      ∃ u v, l = u ++ v ∧ RMatch r (c :: u) ∧ RMatch (.star r) v := by
  induction h with
  | eps => intro r c l hr _; simp at hr
  | cls _ => intro r c l hr _; simp at hr
  | ncls _ => intro r c l hr _; simp at hr
  | cat _ _ _ _ => intro r c l hr _; simp at hr
  | altL _ _ => intro r c l hr _; simp at hr
  | altR _ _ => intro r c l hr _; simp at hr
  | starNil => intro r c l _ hm; simp at hm
  | @starCat r1 u v hu hv ihu ihv =>
      intro r c l hr hm
      injection hr with hr1
      subst hr1
      cases u with
      | nil =>
          simp only [List.nil_append] at hm
          exact ihv rfl hm
      | cons x u' =>
          rcases List.cons_eq_cons.mp hm with ⟨rfl, rfl⟩
          exact ⟨u', v, rfl, hu, hv⟩

theorem star_cons_inv {r : Rx} {c : Char} {l : List Char}
    (h : RMatch (.star r) (c :: l)) :
    ∃ u v, l = u ++ v ∧ RMatch r (c :: u) ∧ RMatch (.star r) v :=
  star_cons_aux h rfl rfl

theorem rderiv_iff (r : Rx) (c : Char) (l : List Char) :
    RMatch (rderiv r c) l ↔ RMatch r (c :: l) := by
  induction r generalizing l with
  | emp => simp [rderiv, rmatch_emp_iff]
  | eps => simp [rderiv, rmatch_emp_iff, rmatch_eps_iff]
  | cls cs =>
      by_cases hc : c ∈ cs
      · simp only [rderiv, if_pos hc, rmatch_eps_iff, rmatch_cls_iff]
        constructor
        · rintro rfl
          exact ⟨c, rfl, hc⟩
        · rintro ⟨c', he, _⟩
          exact (List.cons_eq_cons.mp he).2
      · simp only [rderiv, if_neg hc, rmatch_emp_iff, rmatch_cls_iff]
        constructor
        · exact fun h => h.elim
        · rintro ⟨c', he, hmem⟩
          injection he with h1 _
          exact (hc (by rw [h1]; exact hmem)).elim
  | ncls p =>
      cases hpc : p c
      case false =>
        have hd : rderiv (.ncls p) c = .eps := by simp [rderiv, hpc]
        rw [hd, rmatch_eps_iff, rmatch_ncls_iff]
        constructor
        · rintro rfl
          exact ⟨c, rfl, hpc⟩
        · rintro ⟨c', he, _⟩
          exact (List.cons_eq_cons.mp he).2
      case true =>
        have hd : rderiv (.ncls p) c = .emp := by simp [rderiv, hpc]
        rw [hd, rmatch_emp_iff, rmatch_ncls_iff]
        constructor
        · exact fun h => h.elim
        · rintro ⟨c', he, hp⟩
          injection he with h1 _
          rw [← h1, hpc] at hp
          simp at hp
  | alt r s ih1 ih2 =>
      simp [rderiv, altS_iff, rmatch_alt_iff, ih1, ih2]
  | cat r s ih1 ih2 =>
      cases hn : nullable r
      case false =>
        have hd : rderiv (.cat r s) c = catS (rderiv r c) s := by simp [rderiv, hn]
        rw [hd, catS_iff, rmatch_cat_iff, rmatch_cat_iff]
        constructor
        · rintro ⟨u, v, rfl, h1, h2⟩
          exact ⟨c :: u, v, rfl, (ih1 u).mp h1, h2⟩
        · rintro ⟨u, v, hm, h1, h2⟩
          cases u with
          | nil =>
              have hnil := rmatch_nil_nullable h1 rfl
              rw [hn] at hnil
              simp at hnil
          | cons x u' =>
              rcases List.cons_eq_cons.mp hm with ⟨rfl, rfl⟩
              exact ⟨u', v, rfl, (ih1 u').mpr h1, h2⟩
      case true =>
        have hd : rderiv (.cat r s) c = altS (catS (rderiv r c) s) (rderiv s c) := by
          simp [rderiv, hn]
        rw [hd, altS_iff, rmatch_alt_iff, catS_iff, rmatch_cat_iff, rmatch_cat_iff]
        constructor
        · rintro (⟨u, v, rfl, h1, h2⟩ | h2)
          · exact ⟨c :: u, v, rfl, (ih1 u).mp h1, h2⟩
          · exact ⟨[], c :: l, rfl, nullable_iff.mp hn, (ih2 l).mp h2⟩
        · rintro ⟨u, v, hm, h1, h2⟩
          cases u with
          | nil =>
              simp only [List.nil_append] at hm
              exact Or.inr ((ih2 l).mpr (by rw [hm]; exact h2))
          | cons x u' =>
              rcases List.cons_eq_cons.mp hm with ⟨rfl, rfl⟩
              exact Or.inl ⟨u', v, rfl, (ih1 u').mpr h1, h2⟩
  | star r ih =>
      have hd : rderiv (.star r) c = catS (rderiv r c) (.star r) := by simp [rderiv]
      rw [hd, catS_iff, rmatch_cat_iff]
      constructor
      · rintro ⟨u, v, rfl, h1, h2⟩
        have hs : RMatch (.star r) ((c :: u) ++ v) := .starCat ((ih u).mp h1) h2
        simpa using hs
      · intro h
        rcases star_cons_inv h with ⟨u, v, rfl, h1, h2⟩
        exact ⟨u, v, rfl, (ih u).mpr h1, h2⟩

theorem rmatch_iff {l : List Char} {r : Rx} : rmatch r l = true ↔ RMatch r l := by
  induction l generalizing r with
  | nil => exact nullable_iff
  | cons c l ih => simpa [rmatch, ih] using rderiv_iff r c l

theorem mustContain_sound {c : Char} {r : Rx} {l : List Char}
    (h : RMatch r l) : mustContain c r = true → c ∈ l := by
  induction h with
  | eps => intro h; simp [mustContain] at h
  | cls hmem =>
      intro h
      have hc := List.all_eq_true.mp h _ hmem
      simp_all
  | ncls _ => intro h; simp [mustContain] at h
  | cat _ _ ih1 ih2 =>
      intro h
      rcases Bool.or_eq_true_iff.mp h with h1 | h2
      · exact List.mem_append_left _ (ih1 h1)
      · exact List.mem_append_right _ (ih2 h2)
  | altL _ ih =>
      intro h
      exact ih (Bool.and_eq_true_iff.mp h).1
  | altR _ ih =>
      intro h
      exact ih (Bool.and_eq_true_iff.mp h).2
  | starNil => intro h; simp [mustContain] at h
  | starCat _ _ _ _ => intro h; simp [mustContain] at h

theorem repN_cls_complete {cs : List Char} :
    ∀ (n : Nat) (l : List Char), l.length = n → (∀ c ∈ l, c ∈ cs) →
      RMatch (repN (.cls cs) n) l := by
  intro n
  induction n with
  | zero =>
      intro l hl _
      simp only [repN]
      exact (List.length_eq_zero.mp hl) ▸ RMatch.eps
  | succ n ih =>
      intro l hl hmem
      cases l with
      | nil => cases hl
      | cons x xs =>
          have hx : RMatch (Rx.cls cs) [x] := .cls (hmem x (by simp))
          simpa [repN] using
            RMatch.cat hx (ih xs (by simpa using hl) (fun c hc => hmem c (by simp [hc])))
/-! ### Pattern-level facts -/

theorem mustContain_dot_ipv4 : mustContain '.' IPV4_PATTERN = true := by decide

theorem mustContain_colon_ipv6 : mustContain ':' IPV6_PATTERN = true := by decide

theorem rmatch_ipv4_dot {l : List Char} (h : rmatch IPV4_PATTERN l = true) : '.' ∈ l :=
  mustContain_sound (rmatch_iff.mp h) mustContain_dot_ipv4

theorem rmatch_ipv6_colon {l : List Char} (h : rmatch IPV6_PATTERN l = true) : ':' ∈ l :=
  mustContain_sound (rmatch_iff.mp h) mustContain_colon_ipv6

theorem hash_complete {l : List Char} (hall : ∀ c ∈ l, c ∈ hexCs)
    (hlen : l.length = 32 ∨ l.length = 40 ∨ l.length = 64) :
    rmatch HASH_PATTERN l = true := by
  apply rmatch_iff.mpr
  show RMatch (.alt (repN hexC 32) (.alt (repN hexC 40) (.alt (repN hexC 64) .emp))) l
  rcases hlen with h | h | h
  · exact .altL (repN_cls_complete 32 l h hall)
  · exact .altR (.altL (repN_cls_complete 40 l h hall))
  · exact .altR (.altR (.altL (repN_cls_complete 64 l h hall)))

/-- Bracket-freeness, whitespace-freeness and lowercase closure of the
hex characters, checked by evaluation. -/
theorem hexCs_facts : ∀ c ∈ hexCs,
    (c == '[') = false ∧ (c == ']') = false ∧ isJsWs c = false ∧
    jsToLower c ∈ hexCs ∧ jsToLower c ≠ '.' ∧ jsToLower c ≠ ':' := by decide

/-! ### Normalisation facts -/

theorem dropWhile_eq_self_of {p : Char → Bool} {l : List Char}
    (h : ∀ c ∈ l, p c = false) : l.dropWhile p = l := by
  cases l with
  | nil => rfl
  | cons x xs => simp [List.dropWhile, h x (by simp)]

theorem trimL_eq_self {l : List Char} (h : ∀ c ∈ l, isJsWs c = false) : trimL l = l := by
  rw [trimL, dropWhile_eq_self_of h,
    dropWhile_eq_self_of (fun c hc => h c (List.mem_reverse.mp hc)), List.reverse_reverse]

theorem stripB_eq_self {l : List Char}
    (h : ∀ c ∈ l, (c == '[') = false ∧ (c == ']') = false) : stripB l = l := by
  have h1 : l.filter (fun c => !(c == '[')) = l :=
    List.filter_eq_self.mpr (fun c hc => by simp [(h c hc).1])
  rw [stripB, h1, List.filter_eq_self.mpr (fun c hc => by simp [(h c hc).2])]

/-- For an all-hex input the normalised form is the lowercased character
list: no brackets to strip, no whitespace to trim. -/
theorem normaliseString_of_hex {s : String} (hall : ∀ c ∈ s.data, c ∈ hexCs) :
    (normaliseString s).data = s.data.map jsToLower := by
  have hfacts := fun c hc => hexCs_facts c (hall c hc)
  have h1 : stripB s.data = s.data :=
    stripB_eq_self (fun c hc => ⟨(hfacts c hc).1, (hfacts c hc).2.1⟩)
  have h2 : trimL s.data = s.data :=
    trimL_eq_self (fun c hc => (hfacts c hc).2.2.1)
  rw [normaliseString, h1, h2]

theorem detect_ip_of_match {s : String}
    (h : rmatch IPV4_PATTERN (normaliseString s).data = true ∨
         rmatch IPV6_PATTERN (normaliseString s).data = true) :
    detectIOCType s = some "ip" := by
  have hne : (normaliseString s).data ≠ [] := by
    rcases h with h | h
    · exact List.ne_nil_of_mem (rmatch_ipv4_dot h)
    · exact List.ne_nil_of_mem (rmatch_ipv6_colon h)
  have hemp : (normaliseString s).data.isEmpty = false := by
    cases hc : (normaliseString s).data with
    | nil => exact absurd hc hne
    | cons x xs => rfl
  rcases h with h | h <;> simp [detectIOCType, hemp, h]

theorem detect_hash_of_hex {s : String} (hall : ∀ c ∈ s.data, c ∈ hexCs)
    (hlen : s.data.length = 32 ∨ s.data.length = 40 ∨ s.data.length = 64) :
    detectIOCType s = some "hash" := by
  have hfacts := fun c hc => hexCs_facts c (hall c hc)
  have hnorm := normaliseString_of_hex hall
  have hmem : ∀ c ∈ s.data.map jsToLower, c ∈ hexCs := by
    intro c hc
    rcases List.mem_map.mp hc with ⟨a, ha, rfl⟩
    exact (hfacts a ha).2.2.2.1
  have hnodot : ('.' ∈ s.data.map jsToLower) = False := by
    simp only [eq_iff_iff, iff_false]
    intro hc
    rcases List.mem_map.mp hc with ⟨a, ha, hja⟩
    exact (hfacts a ha).2.2.2.2.1 hja
  have hnocolon : (':' ∈ s.data.map jsToLower) = False := by
    simp only [eq_iff_iff, iff_false]
    intro hc
    rcases List.mem_map.mp hc with ⟨a, ha, hja⟩
    exact (hfacts a ha).2.2.2.2.2 hja
  have hlen' : (s.data.map jsToLower).length = 32 ∨ (s.data.map jsToLower).length = 40 ∨
      (s.data.map jsToLower).length = 64 := by
    simpa [List.length_map] using hlen
  have hip4 : rmatch IPV4_PATTERN (s.data.map jsToLower) = false := by
    cases hr : rmatch IPV4_PATTERN (s.data.map jsToLower) with
    | false => rfl
    | true => exact absurd (rmatch_ipv4_dot hr) (by rw [hnodot]; exact fun h => h)
  have hip6 : rmatch IPV6_PATTERN (s.data.map jsToLower) = false := by
    cases hr : rmatch IPV6_PATTERN (s.data.map jsToLower) with
    | false => rfl
    | true => exact absurd (rmatch_ipv6_colon hr) (by rw [hnocolon]; exact fun h => h)
  have hh : rmatch HASH_PATTERN (s.data.map jsToLower) = true := hash_complete hmem hlen'
  have hemp : (s.data.map jsToLower).isEmpty = false := by
    cases hc : s.data.map jsToLower with
    | nil => rw [hc] at hlen'; simp at hlen'
    | cons x xs => rfl
  simp [detectIOCType, hnorm, hemp, hip4, hip6, hh]
/-! ### lastIndexOf facts -/

theorem lastIdx_cons (c x : Char) (xs : List Char) :
    lastIdx c (x :: xs) =
      if 0 ≤ lastIdx c xs then lastIdx c xs + 1 else if x == c then 0 else -1 := rfl

theorem lastIdx_of_not_mem {c : Char} {l : List Char} (h : c ∉ l) : lastIdx c l = -1 := by
  induction l with
  | nil => rfl
  | cons x xs ih =>
      rw [List.mem_cons, not_or] at h
      have hx : (x == c) = false := beq_eq_false_iff_ne.mpr (fun he => h.1 he.symm)
      rw [lastIdx_cons, ih h.2, hx]
      norm_num

theorem lastIdx_nonneg_of_mem {c : Char} {l : List Char} (h : c ∈ l) : 0 ≤ lastIdx c l := by
  induction l with
  | nil => cases h
  | cons x xs ih =>
      rw [lastIdx_cons]
      rcases List.mem_cons.mp h with rfl | hm
      · by_cases hr : 0 ≤ lastIdx c xs
        · rw [if_pos hr]; omega
        · rw [if_neg hr, if_pos (by simp)]
      · rw [if_pos (ih hm)]
        have := ih hm
        omega

theorem lastIdx_lt_length (c : Char) (l : List Char) : lastIdx c l < l.length := by
  induction l with
  | nil => simp [lastIdx]
  | cons x xs ih =>
      rw [lastIdx_cons, List.length_cons]
      by_cases hr : 0 ≤ lastIdx c xs
      · rw [if_pos hr]; push_cast; omega
      · rw [if_neg hr]
        by_cases hx : (x == c) = true
        · rw [if_pos hx]; push_cast; omega
        · rw [if_neg hx]; push_cast; omega

theorem lastIdx_append_last {c : Char} {v : List Char} (u : List Char) (hv : c ∉ v) :
    lastIdx c (u ++ c :: v) = u.length := by
  induction u with
  | nil =>
      rw [List.nil_append, lastIdx_cons, lastIdx_of_not_mem hv]
      simp
  | cons x u ih =>
      rw [List.cons_append, lastIdx_cons, ih, if_pos (Int.natCast_nonneg u.length),
        List.length_cons]
      push_cast
      omega

theorem lastIdx_append_other {c d : Char} {v : List Char} (u : List Char)
    (hcd : c ≠ d) (hv : c ∉ v) : lastIdx c (u ++ d :: v) = lastIdx c u := by
  induction u with
  | nil =>
      have hd : (d == c) = false := beq_eq_false_iff_ne.mpr (fun he => hcd he.symm)
      rw [List.nil_append, lastIdx_cons, lastIdx_of_not_mem hv, hd]
      simp [lastIdx]
  | cons x u ih =>
      rw [List.cons_append, lastIdx_cons, lastIdx_cons, ih]

theorem lastIdx_decomp {c : Char} {l : List Char} (h : 0 ≤ lastIdx c l) :
    ∃ u v, l = u ++ c :: v ∧ (u.length : Int) = lastIdx c l ∧ c ∉ v := by
  induction l with
  | nil => simp [lastIdx] at h
  | cons x xs ih =>
      by_cases hr : 0 ≤ lastIdx c xs
      · rcases ih hr with ⟨u, v, rfl, hu, hv⟩
        refine ⟨x :: u, v, rfl, ?_, hv⟩
        rw [lastIdx_cons, if_pos hr, List.length_cons, ← hu]
        push_cast
        omega
      · by_cases hx : (x == c) = true
        · have hxc : x = c := by simpa using hx
          have hnm : c ∉ xs := fun hm => hr (lastIdx_nonneg_of_mem hm)
          refine ⟨[], xs, by simp [hxc], ?_, hnm⟩
          rw [lastIdx_cons, if_neg hr, if_pos hx]
          simp
        · exfalso
          rw [lastIdx_cons, if_neg hr, if_neg hx] at h
          omega
theorem lastIdx_ge_neg_one (c : Char) (l : List Char) : -1 ≤ lastIdx c l := by
  induction l with
  | nil => simp [lastIdx]
  | cons x xs ih =>
      rw [lastIdx_cons]
      by_cases hr : 0 ≤ lastIdx c xs
      · rw [if_pos hr]; omega
      · rw [if_neg hr]
        by_cases hx : (x == c) = true
        · rw [if_pos hx]; omega
        · rw [if_neg hx]

theorem lastIdx_append_ge {c : Char} (u : List Char) {v : List Char} (h : c ∈ v) :
    (u.length : Int) ≤ lastIdx c (u ++ v) := by
  induction u with
  | nil =>
      rw [List.nil_append, List.length_nil]
      exact_mod_cast lastIdx_nonneg_of_mem h
  | cons x u ih =>
      rw [List.cons_append, lastIdx_cons, if_pos (by omega), List.length_cons]
      push_cast
      omega

theorem data_mk (l : List Char) : (String.mk l).data = l := rfl

theorem drop_append_cons (u : List Char) (c : Char) (v : List Char) :
    (u ++ c :: v).drop (u.length + 1) = v := by
  rw [List.append_cons]
  have h := List.drop_left (u ++ [c]) v
  rw [List.length_append, List.length_cons, List.length_nil] at h
  exact h

/-- The dot branch of sanitiseIP. -/
theorem sanitiseIP_dot (u v : List Char) (hd : '.' ∉ v) (hc : ':' ∉ v) :
    sanitiseIP ⟨u ++ '.' :: v⟩ = ⟨u ++ '[' :: '.' :: ']' :: v⟩ := by
  have hdot : lastIdx '.' (u ++ '.' :: v) = u.length := lastIdx_append_last u hd
  have hcol : lastIdx ':' (u ++ '.' :: v) = lastIdx ':' u :=
    lastIdx_append_other u (by decide) hc
  have hlt : lastIdx ':' u < (u.length : Int) := lastIdx_lt_length ':' u
  simp only [sanitiseIP, data_mk, hdot, hcol, if_pos hlt]
  rw [show ((u.length : Int).toNat) = u.length from rfl, List.take_left,
    drop_append_cons]

/-- The colon branch of sanitiseIP. -/
theorem sanitiseIP_colon (u v : List Char) (hd : '.' ∉ v) (hc : ':' ∉ v) :
    sanitiseIP ⟨u ++ ':' :: v⟩ = ⟨u ++ '[' :: ':' :: ']' :: v⟩ := by
  have hcol : lastIdx ':' (u ++ ':' :: v) = u.length := lastIdx_append_last u hc
  have hdot : lastIdx '.' (u ++ ':' :: v) = lastIdx '.' u :=
    lastIdx_append_other u (by decide) hd
  have hlt : lastIdx '.' u < (u.length : Int) := lastIdx_lt_length '.' u
  simp only [sanitiseIP, data_mk, hdot, hcol]
  rw [if_neg (by omega), if_pos (by omega),
    show ((u.length : Int).toNat) = u.length from rfl, List.take_left,
    drop_append_cons]

/-- sanitiseIP leaves a string without dot or colon unchanged. -/
theorem sanitiseIP_id {s : String} (hd : '.' ∉ s.data) (hc : ':' ∉ s.data) :
    sanitiseIP s = s := by
  simp only [sanitiseIP, lastIdx_of_not_mem hd, lastIdx_of_not_mem hc]
  norm_num
theorem stripB_append (u v : List Char) : stripB (u ++ v) = stripB u ++ stripB v := by
  simp [stripB, List.filter_append]

theorem stripB_bracket_dot (v : List Char) :
    stripB ('[' :: '.' :: ']' :: v) = '.' :: stripB v := by
  simp [stripB, List.filter]

theorem stripB_bracket_colon (v : List Char) :
    stripB ('[' :: ':' :: ']' :: v) = ':' :: stripB v := by
  simp [stripB, List.filter]

theorem stripB_dot_cons (v : List Char) : stripB ('.' :: v) = '.' :: stripB v := by
  simp [stripB, List.filter]

theorem stripB_colon_cons (v : List Char) : stripB (':' :: v) = ':' :: stripB v := by
  simp [stripB, List.filter]

theorem stripB_cons_any (c : Char) (v : List Char) :
    stripB (c :: v) = stripB [c] ++ stripB v := stripB_append [c] v

/-- Strings whose bracket-stripped characters agree normalise equally. -/
theorem normaliseString_congr {x y : String} (h : stripB x.data = stripB y.data) :
    normaliseString x = normaliseString y := by
  show (⟨(trimL (stripB x.data)).map jsToLower⟩ : String) = ⟨(trimL (stripB y.data)).map jsToLower⟩
  rw [h]

/-- Classification only depends on the normalised form. -/
theorem detectIOCType_congr {x y : String} (h : normaliseString x = normaliseString y) :
    detectIOCType x = detectIOCType y := by
  simp only [detectIOCType, h]

/-- Bracket-stripping undoes the ip sanitisation. -/
theorem stripB_sanitiseIP (x : String) : stripB (sanitiseIP x).data = stripB x.data := by
  by_cases h1 : lastIdx ':' x.data < lastIdx '.' x.data
  · have h0 : 0 ≤ lastIdx '.' x.data := by
      have := lastIdx_ge_neg_one ':' x.data
      omega
    rcases lastIdx_decomp h0 with ⟨u, v, hx, hu, hv⟩
    have hcv : ':' ∉ v := by
      intro hm
      have hge : ((u ++ ['.']).length : Int) ≤ lastIdx ':' ((u ++ ['.']) ++ v) :=
        lastIdx_append_ge (u ++ ['.']) hm
      rw [← List.append_cons] at hge
      rw [hx] at h1
      rw [lastIdx_append_last u hv] at h1
      simp only [List.length_append, List.length_cons, List.length_nil] at hge
      omega
    have hxs : x = ⟨u ++ '.' :: v⟩ := by
      cases x
      simp only [data_mk] at hx
      rw [hx]
    rw [hxs, sanitiseIP_dot u v hv hcv, data_mk, data_mk, stripB_append, stripB_append,
      stripB_bracket_dot, stripB_dot_cons]
  · by_cases h2 : (-1 : Int) < lastIdx ':' x.data
    · have h0 : 0 ≤ lastIdx ':' x.data := by omega
      rcases lastIdx_decomp h0 with ⟨u, v, hx, hu, hv⟩
      have hdv : '.' ∉ v := by
        intro hm
        have hge : ((u ++ [':']).length : Int) ≤ lastIdx '.' ((u ++ [':']) ++ v) :=
          lastIdx_append_ge (u ++ [':']) hm
        rw [← List.append_cons] at hge
        rw [hx] at h1
        rw [lastIdx_append_last u hv] at h1
        simp only [List.length_append, List.length_cons, List.length_nil] at hge
        omega
      have hxs : x = ⟨u ++ ':' :: v⟩ := by
        cases x
        simp only [data_mk] at hx
        rw [hx]
      rw [hxs, sanitiseIP_colon u v hdv hv, data_mk, data_mk, stripB_append, stripB_append,
        stripB_bracket_colon, stripB_colon_cons]
    · have hid : sanitiseIP x = x := by
        simp only [sanitiseIP, if_neg h1, if_neg h2]
      rw [hid]

/-- Bracket-stripping undoes the url sanitisation. -/
theorem stripB_sanitiseURL (x : String) : stripB (sanitiseURL x).data = stripB x.data := by
  show stripB (x.data.foldr (fun c acc => if c == '.' then '[' :: '.' :: ']' :: acc else c :: acc) []) = stripB x.data
  induction x.data with
  | nil => rfl
  | cons c l ih =>
      by_cases hc : (c == '.') = true
      · have hcd : c = '.' := by simpa using hc
        rw [List.foldr_cons, if_pos hc, stripB_bracket_dot, ih, hcd, stripB_dot_cons]
      · rw [List.foldr_cons, if_neg hc, stripB_cons_any, ih, stripB_cons_any c l]
/-! ## Claim theorems -/

/-- C5: detectIOCType normalises its input and tests the patterns in the
fixed precedence order IPv4/IPv6, hash, url, first match winning: every
string whose normalised form matches the IPv4 or IPv6 pattern classifies
as ip; every 32-, 40- or 64-character hex string (lowercase or
uppercase) classifies as hash; a representative absolute URL classifies
as url; and a string matching none of the patterns — such as
"not a url" or the empty string — classifies as none. -/
theorem c5_classifier_precedence :
    (∀ s : String,
       rmatch IPV4_PATTERN (normaliseString s).data = true ∨
       rmatch IPV6_PATTERN (normaliseString s).data = true →
       detectIOCType s = some "ip") ∧
    (∀ s : String, (∀ c ∈ s.data, c ∈ hexCs) →
       s.data.length = 32 ∨ s.data.length = 40 ∨ s.data.length = 64 →
       detectIOCType s = some "hash") ∧
    detectIOCType "https://example.com" = some "url" ∧
    detectIOCType "not a url" = none ∧
    detectIOCType "" = none ∧
    (∀ s : String,
       rmatch IPV4_PATTERN (normaliseString s).data = false →
       rmatch IPV6_PATTERN (normaliseString s).data = false →
       rmatch HASH_PATTERN (normaliseString s).data = false →
       rmatch FULL_URL_PATTERN (normaliseString s).data = false →
       detectIOCType s = none) :=
  ⟨fun _ h => detect_ip_of_match h,
   fun _ h1 h2 => detect_hash_of_hex h1 h2,
   by decide, by decide, by decide,
   fun s h1 h2 h3 h4 => by simp [detectIOCType, h1, h2, h3, h4]⟩

/-- Witness for C5 at concrete inputs: an IPv4 address classifies as ip,
an uppercase MD5 digest classifies as hash, free text classifies as
none. -/
theorem c5_classifier_precedence_witness :
    detectIOCType "192.168.1.1" = some "ip" ∧
    detectIOCType "44D88612FEA8A8F36DE82E1278ABB02F" = some "hash" ∧
    detectIOCType "random text" = none :=
  ⟨c5_classifier_precedence.1 "192.168.1.1" (Or.inl (by decide)),
   c5_classifier_precedence.2.1 "44D88612FEA8A8F36DE82E1278ABB02F" (by decide) (by decide),
   c5_classifier_precedence.2.2.2.2.2 "random text" (by decide) (by decide) (by decide)
     (by decide)⟩

/-- C8: sanitiseIP replaces the last occurrence of dot or colon —
whichever occurs later — with its bracketed form, returns the value
unchanged when neither is present, and on the given examples yields
192.168.1[.]1 and 2001:db8:[:]1. -/
theorem c8_sanitiseIP_last_separator :
    sanitiseIP "192.168.1.1" = "192.168.1[.]1" ∧
    sanitiseIP "2001:db8::1" = "2001:db8:[:]1" ∧
    (∀ s : String, '.' ∉ s.data → ':' ∉ s.data → sanitiseIP s = s) ∧
    (∀ u v : List Char, '.' ∉ v → ':' ∉ v →
       sanitiseIP ⟨u ++ '.' :: v⟩ = ⟨u ++ '[' :: '.' :: ']' :: v⟩) ∧
    (∀ u v : List Char, '.' ∉ v → ':' ∉ v →
       sanitiseIP ⟨u ++ ':' :: v⟩ = ⟨u ++ '[' :: ':' :: ']' :: v⟩) :=
  ⟨by decide, by decide,
   fun _ hd hc => sanitiseIP_id hd hc,
   fun u v hd hc => sanitiseIP_dot u v hd hc,
   fun u v hd hc => sanitiseIP_colon u v hd hc⟩

/-- Witness for C8 at concrete inputs: the general branches applied to
explicit decompositions, and a separator-free string left unchanged. -/
theorem c8_sanitiseIP_last_separator_witness :
    sanitiseIP "abc" = "abc" ∧
    sanitiseIP ⟨['1', '0', '.', '7']⟩ = ⟨['1', '0', '[', '.', ']', '7']⟩ ∧
    sanitiseIP ⟨['a', ':', 'b']⟩ = ⟨['a', '[', ':', ']', 'b']⟩ :=
  ⟨c8_sanitiseIP_last_separator.2.2.1 "abc" (by decide) (by decide),
   c8_sanitiseIP_last_separator.2.2.2.1 ['1', '0'] ['7'] (by decide) (by decide),
   c8_sanitiseIP_last_separator.2.2.2.2 ['a'] ['b'] (by decide) (by decide)⟩

/-- C10: classification is invariant under both sanitisers, because they
only insert bracket characters, which normaliseString strips before any
pattern is tested. -/
theorem c10_detect_invariant_under_sanitisation :
    (∀ x : String, detectIOCType (sanitiseIP x) = detectIOCType x) ∧
    (∀ x : String, detectIOCType (sanitiseURL x) = detectIOCType x) :=
  ⟨fun x => detectIOCType_congr (normaliseString_congr (stripB_sanitiseIP x)),
   fun x => detectIOCType_congr (normaliseString_congr (stripB_sanitiseURL x))⟩
/-! ### Flag-resolver lemmas and claims C6/C7 -/

theorem find_first_name (n : String) :
    ∀ (pre : List PFlag) (f : PFlag) (post : List PFlag),
      (∀ g ∈ pre, g.name ≠ n) → f.name = n →
      (pre ++ f :: post).find? (fun g => g.name == n) = some f := by
  intro pre
  induction pre with
  | nil =>
      intro f post _ hf
      simp [List.find?, hf]
  | cons g pre ih =>
      intro f post hpre hf
      have hg : (g.name == n) = false :=
        beq_eq_false_iff_ne.mpr (hpre g (by simp))
      simp only [List.cons_append, List.find?, hg]
      exact ih f post (fun g' hg' => hpre g' (by simp [hg'])) hf

/-- C6: getFlagValue walks the path one name at a time, taking the first
sibling in insertion order whose name equals the path element; it
returns undefined when a step has no match, returns the matched flag's
value upon matching the final path element, and otherwise descends into
the matched flag's sub-flags, an absent subFlags field acting as an
empty level; on the given flag tree the path Copy IP / Sanitise IP
yields true and the path Missing yields undefined. -/
theorem c6_getFlagValue_walk :
    getFlagValue [PFlag.mk "Copy IP" true (some [PFlag.mk "Sanitise IP" true none])]
      ["Copy IP", "Sanitise IP"] = some true ∧
    getFlagValue [PFlag.mk "Copy IP" true (some [PFlag.mk "Sanitise IP" true none])]
      ["Missing"] = none ∧
    (∀ flags path, getFlagValue flags path = goFlag path.getLast? (some flags) path) ∧
    (∀ (lastN : Option String) (cur : Option (List PFlag)), goFlag lastN cur [] = none) ∧
    (∀ (lastN : Option String) (p : List String),
       goFlag lastN none p = goFlag lastN (some ([] : List PFlag)) p) ∧
    (∀ (pre : List PFlag) (f : PFlag) (post : List PFlag) (n : String),
       (∀ g ∈ pre, g.name ≠ n) → f.name = n →
       (pre ++ f :: post).find? (fun g => g.name == n) = some f) ∧
    (∀ (lastN : Option String) (cur : Option (List PFlag)) (n : String) rest,
       Option.bind cur (List.find? (fun f => f.name == n)) = none →
       goFlag lastN cur (n :: rest) = none) ∧
    (∀ (lastN : Option String) (cur : Option (List PFlag)) (n : String) rest f,
       Option.bind cur (List.find? (fun f => f.name == n)) = some f →
       lastN = some n → goFlag lastN cur (n :: rest) = some f.value) ∧
    (∀ (lastN : Option String) (cur : Option (List PFlag)) (n : String) rest f,
       Option.bind cur (List.find? (fun f => f.name == n)) = some f →
       lastN ≠ some n → goFlag lastN cur (n :: rest) = goFlag lastN f.subFlags rest) := by
  refine ⟨by decide, by decide, fun _ _ => rfl, fun _ _ => rfl, ?_, ?_, ?_, ?_, ?_⟩
  · intro lastN p
    cases p <;> rfl
  · exact fun pre f post n h1 h2 => find_first_name n pre f post h1 h2
  · intro lastN cur n rest h
    simp only [goFlag, h]
  · intro lastN cur n rest f h hl
    simp only [goFlag, h, hl, beq_self_eq_true, if_pos]
  · intro lastN cur n rest f h hl
    have hb : (lastN == some n) = false := beq_eq_false_iff_ne.mpr hl
    simp only [goFlag, h, hb, Bool.false_eq_true, if_false]

/-- Witness for C6: the step lemmas applied at concrete flags: first
match by insertion order, a missing step, a final-element hit and a
descent step. -/
theorem c6_getFlagValue_walk_witness :
    ([PFlag.mk "A" false none] ++ (PFlag.mk "B" true none) :: []).find?
        (fun g => g.name == "B") = some (PFlag.mk "B" true none) ∧
    goFlag (some "X") (some [PFlag.mk "A" false none]) ["X"] = none ∧
    goFlag (some "A") (some [PFlag.mk "A" true none]) ["A"] = some true ∧
    goFlag (some "B") (some [PFlag.mk "A" false (some [PFlag.mk "B" true none])]) ["A", "B"] =
      goFlag (some "B") (some [PFlag.mk "B" true none]) ["B"] :=
  ⟨c6_getFlagValue_walk.2.2.2.2.2.1 [PFlag.mk "A" false none] (PFlag.mk "B" true none) []
     "B" (by decide) (by decide),
   c6_getFlagValue_walk.2.2.2.2.2.2.1 (some "X") (some [PFlag.mk "A" false none]) "X" []
     rfl,
   c6_getFlagValue_walk.2.2.2.2.2.2.2.1 (some "A") (some [PFlag.mk "A" true none]) "A" []
     (PFlag.mk "A" true none) rfl rfl,
   c6_getFlagValue_walk.2.2.2.2.2.2.2.2 (some "B")
     (some [PFlag.mk "A" false (some [PFlag.mk "B" true none])]) "A" ["B"]
     (PFlag.mk "A" false (some [PFlag.mk "B" true none])) rfl (by decide)⟩

/-- C7 (the five-argument executeIOCIntel, url case): with Copy URL and
Sanitise URL both enabled the claim expects the clipboard to receive
the raw value with every dot bracketed, but the code computes that
sanitised value into a dead variable and writes the unsanitised
normalised URL; handleCopyToClipboard, by contrast, writes the
sanitised value, and a hash is copied unsanitised there. -/
theorem c7_exec5_url_clipboard_unsanitised :
    exec5UrlClipboard "example.com"
      [PFlag.mk "Copy URL" true (some [PFlag.mk "Sanitise URL" true none])] =
      some "https://example.com" ∧
    sanitiseURL "example.com" = "example[.]com" ∧
    some "https://example.com" ≠ some (sanitiseURL "example.com") ∧
    handleCopyToClipboard "example.com"
      [PFlag.mk "Copy URL" true (some [PFlag.mk "Sanitise URL" true none])] =
      some "example[.]com" ∧
    handleCopyToClipboard "44d88612fea8a8f36de82e1278abb02f"
      [PFlag.mk "Copy Hash" true none] =
      some "44d88612fea8a8f36de82e1278abb02f" :=
  ⟨by decide, by decide, by decide, by decide, by decide⟩
/-! ### Claim C3: urls arrays are filtered in place -/

/-- C3: during load and save, every array stored under a urls key (at
any depth: fvTraverse recurses through objects and arrays) is replaced
by exactly the subsequence of its entries accepted by isValidUrl:
invalid entries are dropped, valid entries are retained, and the
relative order is unchanged. -/
theorem c3_urls_filtered_in_order :
    (∀ fs, fvTraverse (.obj fs) = .obj (fvTraverseFields fs)) ∧
    (∀ (k : String) (ys : List JsVal) fs, kLower k = "urls" →
       fvTraverseFields ((k, .arr ys) :: fs) =
         (k, .arr (ys.filter urlKeep)) :: fvTraverseFields fs) ∧
    (∀ xs : List String,
       (xs.map JsVal.str).filter urlKeep = (xs.filter isValidUrl).map JsVal.str) ∧
    (∀ xs : List String, (xs.filter isValidUrl).Sublist xs) ∧
    (∀ (xs : List String) (s : String),
       s ∈ xs.filter isValidUrl ↔ s ∈ xs ∧ isValidUrl s = true) := by
  refine ⟨fun _ => rfl, ?_, ?_, fun xs => List.filter_sublist xs,
    fun xs s => List.mem_filter⟩
  · intro k ys fs hk
    simp [fvTraverseFields, hk]
  · intro xs
    induction xs with
    | nil => rfl
    | cons x xs ih =>
        by_cases hx : isValidUrl x = true
        · simp [List.filter, urlKeep, hx, ih]
        · simp only [Bool.not_eq_true] at hx
          simp [List.filter, urlKeep, hx, ih]

/-- Witness for C3: a urls array containing an invalid entry is filtered
to the valid entries in their original order. -/
theorem c3_urls_filtered_in_order_witness :
    fvTraverseFields
      [("urls", JsVal.arr [JsVal.str "https://example.com", JsVal.str "not a url",
                           JsVal.str "test.com"])] =
      [("urls", JsVal.arr [JsVal.str "https://example.com", JsVal.str "test.com"])] :=
  (c3_urls_filtered_in_order.2.1 "urls"
    [JsVal.str "https://example.com", JsVal.str "not a url", JsVal.str "test.com"] []
    (by decide)).trans rfl

/-! ### Claim C4: debounce coalescing -/

theorem debRun_singleBurst (o : DebounceOpts) :
    ∀ (ts : List Nat) (s last : Nat), singleBurst o s last ts = true →
      debRun o (some (s, last)) ts = [fireTime o s (ts.getLastD last)] := by
  intro ts
  induction ts with
  | nil => intro s last _; rfl
  | cons t ts ih =>
      intro s last h
      simp only [singleBurst, Bool.and_eq_true_iff, decide_eq_true_eq] at h
      simp only [debRun, debStep, if_neg (by omega : ¬ fireTime o s last ≤ t),
        List.nil_append, List.getLastD_cons]
      exact ih s t h.2

/-- C4: with delay 500 and maxWait 1000, ten save calls fired every 50
time units coalesce into exactly one saver invocation, at time 950, no
later than 1000 after the first call; in general a burst in which every
call arrives before the pending fire produces exactly one invocation, at
the earlier of the trailing deadline and the forced deadline, which is
never later than the burst start plus maxWait. -/
theorem c4_debounce_coalescing :
    (debounceFires ⟨500, 1000⟩ [0, 50, 100, 150, 200, 250, 300, 350, 400, 450] = [950] ∧
     950 ≤ 0 + 1000) ∧
    (∀ (o : DebounceOpts) (s last : Nat) (ts : List Nat), singleBurst o s last ts = true →
       debRun o (some (s, last)) ts = [fireTime o s (ts.getLastD last)] ∧
       fireTime o s (ts.getLastD last) ≤ s + o.maxWait) :=
  ⟨⟨by decide, by decide⟩,
   fun o s last ts h => ⟨debRun_singleBurst o ts s last h, Nat.min_le_right _ _⟩⟩

/-- Witness for C4: the general burst law applied to the concrete
ten-call scenario. -/
theorem c4_debounce_coalescing_witness :
    debRun ⟨500, 1000⟩ (some (0, 0)) [50, 100, 150, 200, 250, 300, 350, 400, 450] = [950] :=
  ((c4_debounce_coalescing.2 ⟨500, 1000⟩ 0 0 [50, 100, 150, 200, 250, 300, 350, 400, 450]
    (by decide)).1).trans rfl

/-! ### Claim C9: the message boundary never raises -/

theorem lookupPref_mem {p : Prefs} {k : String} {d : IOCDefinition}
    (h : lookupPref p k = some d) : k ∈ keysOf p := by
  induction p with
  | nil => cases h
  | cons kd p ih =>
      rw [lookupPref] at h
      by_cases hk : (kd.1 == k) = true
      · have : kd.1 = k := by simpa using hk
        simp [keysOf, this]
      · rw [if_neg hk] at h
        simp [keysOf]
        right
        simpa [keysOf] using ih h

/-- C9: the investigation pipeline resolves to false with no side effect
for every malformed message (not an object, wrong action, non-string
IOC) and for every IOC whose classification yields none, provided the
preferences hold no key named unknown — which holds whenever the key set
is contained in the default configuration's. -/
theorem c9_message_boundary_resolves_false :
    (∀ (prefs : Prefs) (i : Nat) (m : JsVal), (∀ fs, m ≠ .obj fs) →
       handleRuntimeMessage prefs i m = (false, [])) ∧
    (∀ (prefs : Prefs) (i : Nat) fs, msgActionOk fs = false →
       handleRuntimeMessage prefs i (.obj fs) = (false, [])) ∧
    (∀ (prefs : Prefs) (i : Nat) fs, msgIOC fs = none →
       handleRuntimeMessage prefs i (.obj fs) = (false, [])) ∧
    (∀ (prefs : Prefs) (i : Nat) (n : String), lookupPref prefs "unknown" = none →
       detectIOCType n = none → executeIOCIntelRun prefs i n = (false, [])) ∧
    (∀ prefs : Prefs, (∀ k ∈ keysOf prefs, k ∈ keysOf defaultPreferences) →
       lookupPref prefs "unknown" = none) := by
  refine ⟨?_, ?_, ?_, ?_, ?_⟩
  · intro prefs i m h
    cases m with
    | obj fs => exact absurd rfl (h fs)
    | str _ => rfl
    | boolV _ => rfl
    | num _ => rfl
    | nullV => rfl
    | arr _ => rfl
  · intro prefs i fs h
    simp only [handleRuntimeMessage, h]
  · intro prefs i fs h
    simp only [handleRuntimeMessage, h]
    cases msgActionOk fs <;> rfl
  · intro prefs i n hlook hdet
    simp only [executeIOCIntelRun, hdet, Option.getD_none, hlook]
  · intro prefs h
    cases hl : lookupPref prefs "unknown" with
    | none => rfl
    | some d =>
        have hm := h _ (lookupPref_mem hl)
        simp [keysOf, defaultPreferences] at hm

/-- Witness for C9: concrete malformed messages and an unclassifiable
IOC resolve to false with no effects against the default preferences. -/
theorem c9_message_boundary_resolves_false_witness :
    handleRuntimeMessage defaultPreferences 1 (.num 5) = (false, []) ∧
    handleRuntimeMessage defaultPreferences 1 (.obj [("action", .str "other")]) = (false, []) ∧
    handleRuntimeMessage defaultPreferences 1
      (.obj [("action", .str "executeIOCIntel"), ("IOC", .num 3)]) = (false, []) ∧
    executeIOCIntelRun defaultPreferences 1 "not a url" = (false, []) ∧
    lookupPref defaultPreferences "unknown" = none :=
  ⟨c9_message_boundary_resolves_false.1 defaultPreferences 1 (.num 5)
     (fun fs h => by cases h),
   c9_message_boundary_resolves_false.2.1 defaultPreferences 1 [("action", .str "other")]
     (by decide),
   c9_message_boundary_resolves_false.2.2.1 defaultPreferences 1
     [("action", .str "executeIOCIntel"), ("IOC", .num 3)] (by decide),
   c9_message_boundary_resolves_false.2.2.2.1 defaultPreferences 1 "not a url" rfl
     (by decide),
   c9_message_boundary_resolves_false.2.2.2.2 defaultPreferences (by decide)⟩
/-! ### Claim C1: reconciliation never introduces foreign keys -/

theorem keysOf_cleanObject (raw : JsVal) (d : Prefs) :
    keysOf (cleanObject raw d) = keysOf d := by
  simp [keysOf, cleanObject, List.map_map, Function.comp]

theorem keysOf_setKey {k' : String} {t : Prefs} {k : String} {v : IOCDefinition}
    (h : k' ∈ keysOf (setKey t k v)) : k' ∈ keysOf t ∨ k' = k := by
  rw [setKey] at h
  by_cases hc : ((t.map Prod.fst).contains k) = true
  · rw [if_pos hc] at h
    simp only [keysOf, List.map_map, List.mem_map, Function.comp] at h
    rcases h with ⟨kd, hkd, hk⟩
    by_cases he : (kd.1 == k) = true
    · rw [if_pos he] at hk
      exact Or.inr hk.symm
    · rw [if_neg he] at hk
      exact Or.inl (by simp only [keysOf, List.mem_map]; exact ⟨kd, hkd, hk⟩)
  · rw [if_neg hc] at h
    simp only [keysOf, List.map_append, List.mem_append] at h
    rcases h with h | h
    · exact Or.inl h
    · simp at h
      exact Or.inr h

theorem keysOf_objectAssign {k' : String} :
    ∀ (src t : Prefs), k' ∈ keysOf (objectAssign t src) →
      k' ∈ keysOf t ∨ k' ∈ keysOf src := by
  intro src
  induction src with
  | nil => intro t h; exact Or.inl h
  | cons kd src ih =>
      intro t h
      rcases ih (setKey t kd.1 kd.2) h with h1 | h1
      · rcases keysOf_setKey h1 with h2 | h2
        · exact Or.inl h2
        · exact Or.inr (by simp [keysOf, h2])
      · exact Or.inr (by simp only [keysOf, List.map_cons, List.mem_cons]; exact Or.inr h1)

/-- C1: reconciling any raw persisted object against the default
configuration yields a configuration whose key set is contained in the
default configuration's key set; merging the load result into live state
with only default keys keeps the key set contained; and keys absent from
the defaults never appear in the result. -/
theorem c1_reconcile_keys_subset :
    (∀ (raw : JsVal) (k : String),
       k ∈ keysOf (reconcile raw) → k ∈ keysOf defaultPreferences) ∧
    (∀ (st : Prefs) (raw : JsVal) (k : String),
       (∀ k' ∈ keysOf st, k' ∈ keysOf defaultPreferences) →
       k ∈ keysOf (objectAssign st (reconcile raw)) → k ∈ keysOf defaultPreferences) ∧
    (∀ (raw : JsVal) (k : String),
       k ∉ keysOf defaultPreferences → k ∉ keysOf (reconcile raw)) := by
  have hkeys : ∀ raw : JsVal, keysOf (reconcile raw) = keysOf defaultPreferences :=
    fun raw => keysOf_cleanObject (fvTraverse raw) defaultPreferences
  refine ⟨?_, ?_, ?_⟩
  · intro raw k hk
    rw [hkeys raw] at hk
    exact hk
  · intro st raw k hst hk
    rcases keysOf_objectAssign (reconcile raw) st hk with h | h
    · exact hst k h
    · rw [hkeys raw] at h
      exact h
  · intro raw k hk hm
    exact hk ((hkeys raw) ▸ hm)

/-- Witness for C1: a raw object carrying a retired key legacy and a
partial ip entry reconciles to the default key set; merging into a
default-keyed state keeps the keys, and legacy does not survive. -/
theorem c1_reconcile_keys_subset_witness :
    "ip" ∈ keysOf defaultPreferences ∧
    "legacy" ∉ keysOf
      (reconcile (.obj [("legacy", .num 1), ("ip", .obj [("active", .boolV false)])])) :=
  ⟨c1_reconcile_keys_subset.1 (.obj [("legacy", .num 1), ("ip", .obj [("active", .boolV false)])])
     "ip" (by decide),
   c1_reconcile_keys_subset.2.2 (.obj [("legacy", .num 1), ("ip", .obj [("active", .boolV false)])])
     "legacy" (by decide)⟩
/-! ### Claim C2: reconciliation is idempotent -/

theorem urlsClean_of_urlKeep {x : JsVal} (h : urlKeep x = true) : urlsClean x = true := by
  cases x <;> first | rfl | simp [urlKeep] at h

theorem urlsCleanList_of_all_urlKeep :
    ∀ {l : List JsVal}, l.all urlKeep = true → urlsCleanList l = true := by
  intro l
  induction l with
  | nil => intro _; rfl
  | cons x xs ih =>
      intro h
      rw [List.all_cons] at h
      rcases Bool.and_eq_true_iff.mp h with ⟨h1, h2⟩
      rw [urlsCleanList, urlsClean_of_urlKeep h1, ih h2]
      rfl

theorem filter_all_self {p : JsVal → Bool} (l : List JsVal) :
    (l.filter p).all p = true :=
  List.all_eq_true.mpr (fun _ ha => (List.mem_filter.mp ha).2)

theorem urlsCleanFields_cons (k : String) (v : JsVal) (fs : List (String × JsVal)) :
    urlsCleanFields ((k, v) :: fs) =
      ((if kLower k == "urls" then urlsOkVal v else true) && urlsClean v &&
        urlsCleanFields fs) := rfl

mutual

theorem urlsClean_fvTraverse : ∀ v : JsVal, urlsClean (fvTraverse v) = true
  | .str _ => rfl
  | .boolV _ => rfl
  | .num _ => rfl
  | .nullV => rfl
  | .arr xs => urlsClean_fvTraverseList xs
  | .obj fs => urlsClean_fvTraverseFields fs

theorem urlsClean_fvTraverseList : ∀ xs : List JsVal, urlsCleanList (fvTraverseList xs) = true
  | [] => rfl
  | x :: xs => by
      rw [fvTraverseList, urlsCleanList, urlsClean_fvTraverse x, urlsClean_fvTraverseList xs]
      rfl

theorem urlsClean_fvTraverseFields :
    ∀ fs : List (String × JsVal), urlsCleanFields (fvTraverseFields fs) = true
  | [] => rfl
  | (k, .arr ys) :: fs => by
      have he : fvTraverseFields ((k, .arr ys) :: fs) =
          (k, .arr (if kLower k == "urls" then ys.filter urlKeep else fvTraverseList ys)) ::
            fvTraverseFields fs := rfl
      rw [he, urlsCleanFields_cons, urlsClean_fvTraverseFields fs]
      by_cases hk : (kLower k == "urls") = true
      · rw [if_pos hk, if_pos hk]
        have h1 : urlsClean (.arr (ys.filter urlKeep)) = true :=
          urlsCleanList_of_all_urlKeep (filter_all_self ys)
        have h2 : urlsOkVal (.arr (ys.filter urlKeep)) = true := filter_all_self ys
        rw [h1, h2]
        rfl
      · rw [if_neg hk, if_neg hk]
        have h1 : urlsClean (.arr (fvTraverseList ys)) = true := urlsClean_fvTraverseList ys
        rw [h1]
        rfl
  | (k, .str v) :: fs => by
      have he : fvTraverseFields ((k, .str v) :: fs) = (k, .str v) :: fvTraverseFields fs := rfl
      rw [he, urlsCleanFields_cons, urlsClean_fvTraverseFields fs]
      by_cases hk : (kLower k == "urls") = true
      · rw [if_pos hk]; rfl
      · rw [if_neg hk]; rfl
  | (k, .boolV v) :: fs => by
      have he : fvTraverseFields ((k, .boolV v) :: fs) =
          (k, .boolV v) :: fvTraverseFields fs := rfl
      rw [he, urlsCleanFields_cons, urlsClean_fvTraverseFields fs]
      by_cases hk : (kLower k == "urls") = true
      · rw [if_pos hk]; rfl
      · rw [if_neg hk]; rfl
  | (k, .num v) :: fs => by
      have he : fvTraverseFields ((k, .num v) :: fs) = (k, .num v) :: fvTraverseFields fs := rfl
      rw [he, urlsCleanFields_cons, urlsClean_fvTraverseFields fs]
      by_cases hk : (kLower k == "urls") = true
      · rw [if_pos hk]; rfl
      · rw [if_neg hk]; rfl
  | (k, .nullV) :: fs => by
      have he : fvTraverseFields ((k, .nullV) :: fs) = (k, .nullV) :: fvTraverseFields fs := rfl
      rw [he, urlsCleanFields_cons, urlsClean_fvTraverseFields fs]
      by_cases hk : (kLower k == "urls") = true
      · rw [if_pos hk]; rfl
      · rw [if_neg hk]; rfl
  | (k, .obj gs) :: fs => by
      have he : fvTraverseFields ((k, .obj gs) :: fs) =
          (k, .obj (fvTraverseFields gs)) :: fvTraverseFields fs := rfl
      rw [he, urlsCleanFields_cons, urlsClean_fvTraverseFields fs,
        show urlsClean (.obj (fvTraverseFields gs)) = urlsCleanFields (fvTraverseFields gs)
          from rfl,
        urlsClean_fvTraverseFields gs]
      by_cases hk : (kLower k == "urls") = true
      · rw [if_pos hk]; rfl
      · rw [if_neg hk]; rfl

end
theorem urlsCleanFields_lookup :
    ∀ {fs : List (String × JsVal)} {k : String} {v : JsVal},
      urlsCleanFields fs = true → lookupField fs k = some v →
      urlsClean v = true ∧ ((kLower k == "urls") = true → urlsOkVal v = true) := by
  intro fs
  induction fs with
  | nil => intro k v _ h; cases h
  | cons kd fs ih =>
      obtain ⟨k0, v0⟩ := kd
      intro k v hf h
      rw [urlsCleanFields_cons] at hf
      rcases Bool.and_eq_true_iff.mp hf with ⟨hf1, hf3⟩
      rcases Bool.and_eq_true_iff.mp hf1 with ⟨hf0, hf2⟩
      rw [lookupField] at h
      by_cases hk : (k0 == k) = true
      · rw [if_pos hk] at h
        injection h with h
        subst h
        have hkk : k0 = k := by simpa using hk
        subst hkk
        refine ⟨hf2, fun hurl => ?_⟩
        rw [if_pos hurl] at hf0
        exact hf0
      · rw [if_neg hk] at h
        exact ih hf3 h

theorem jsGet_clean {raw : JsVal} {k : String} {v : JsVal}
    (hraw : urlsClean raw = true) (h : jsGet raw k = some v) : urlsClean v = true := by
  cases raw with
  | obj fs => exact (urlsCleanFields_lookup hraw h).1
  | str s => cases h
  | boolV b => cases h
  | num n => cases h
  | nullV => cases h
  | arr xs => cases h

theorem filterMap_str_valid {xs : List JsVal} (h : xs.all urlKeep = true) :
    (xs.filterMap (fun x => match x with | .str s => some s | _ => none)).all
      isValidUrl = true := by
  induction xs with
  | nil => rfl
  | cons x xs ih =>
      rw [List.all_cons] at h
      rcases Bool.and_eq_true_iff.mp h with ⟨h1, h2⟩
      cases x with
      | str s =>
          rw [List.filterMap_cons]
          simpa [List.all_cons, ih h2] using h1
      | boolV b => simp [urlKeep] at h1
      | num n => simp [urlKeep] at h1
      | nullV => simp [urlKeep] at h1
      | arr ys => simp [urlKeep] at h1
      | obj gs => simp [urlKeep] at h1

theorem cleanIOCDef_urls_valid {rv : Option JsVal} {d : IOCDefinition}
    (hd : d.urls.all isValidUrl = true)
    (hrv : ∀ v, rv = some v → urlsClean v = true) :
    (cleanIOCDef rv d).urls.all isValidUrl = true := by
  rcases rv with _ | v
  · exact hd
  · have hv := hrv v rfl
    cases v with
    | obj gfs =>
        have hcf : urlsCleanFields gfs = true := hv
        cases hl : lookupField gfs "urls" with
        | none => simpa [cleanIOCDef, jsGet, hl] using hd
        | some w =>
            cases w with
            | arr xs =>
                have hok : urlsOkVal (.arr xs) = true :=
                  (urlsCleanFields_lookup hcf hl).2 (by decide)
                have hxs : xs.all urlKeep = true := hok
                simpa [cleanIOCDef, jsGet, hl] using filterMap_str_valid hxs
            | str s => simpa [cleanIOCDef, jsGet, hl] using hd
            | boolV b => simpa [cleanIOCDef, jsGet, hl] using hd
            | num n => simpa [cleanIOCDef, jsGet, hl] using hd
            | nullV => simpa [cleanIOCDef, jsGet, hl] using hd
            | obj hs => simpa [cleanIOCDef, jsGet, hl] using hd
    | str s => exact hd
    | boolV b => exact hd
    | num n => exact hd
    | nullV => exact hd
    | arr xs => exact hd

theorem prefsUrlsValid_cleanObject {raw : JsVal} (hraw : urlsClean raw = true)
    {d : Prefs} (hd : prefsUrlsValid d = true) :
    prefsUrlsValid (cleanObject raw d) = true := by
  rw [prefsUrlsValid, cleanObject, List.all_map]
  apply List.all_eq_true.mpr
  intro kd hkd
  exact cleanIOCDef_urls_valid
    (List.all_eq_true.mp hd kd hkd)
    (fun v hv => jsGet_clean hraw hv)
mutual

theorem fvTraverse_flagToJs : ∀ f : PFlag, fvTraverse (flagToJs f) = flagToJs f
  | .mk n v none => rfl
  | .mk n v (some l) => by
      have he : fvTraverse (flagToJs (.mk n v (some l))) =
          .obj [("name", .str n), ("value", .boolV v),
                ("subFlags", .arr (fvTraverseList (flagsToJs l)))] := rfl
      rw [he, fvTraverseList_flagsToJs l]
      rfl

theorem fvTraverseList_flagsToJs : ∀ l : List PFlag, fvTraverseList (flagsToJs l) = flagsToJs l
  | [] => rfl
  | f :: fs => by
      rw [flagsToJs, fvTraverseList, fvTraverse_flagToJs f, fvTraverseList_flagsToJs fs]

end

theorem fvTraverse_iocDefToJs (d : IOCDefinition) (hd : d.urls.all isValidUrl = true) :
    fvTraverse (iocDefToJs d) = iocDefToJs d := by
  have he : fvTraverse (iocDefToJs d) =
      .obj [("name", .str d.name), ("active", .boolV d.active),
            ("flags", .arr (fvTraverseList (flagsToJs d.flags))),
            ("urls", .arr ((d.urls.map JsVal.str).filter urlKeep)),
            ("version", .num d.version)] := rfl
  rw [he, fvTraverseList_flagsToJs d.flags,
    List.filter_eq_self.mpr (fun x hx => ?_)]
  · rfl
  · rcases List.mem_map.mp hx with ⟨u, hu, rfl⟩
    exact List.all_eq_true.mp hd u hu

theorem fvTraverseFields_prefsToJs :
    ∀ p : Prefs, prefsUrlsValid p = true →
      fvTraverseFields (p.map (fun kd => (kd.1, iocDefToJs kd.2))) =
        p.map (fun kd => (kd.1, iocDefToJs kd.2)) := by
  intro p
  induction p with
  | nil => intro _; rfl
  | cons kd p ih =>
      intro h
      rw [prefsUrlsValid, List.all_cons] at h
      rcases Bool.and_eq_true_iff.mp h with ⟨h1, h2⟩
      have he : fvTraverseFields (((kd.1, iocDefToJs kd.2)) ::
          p.map (fun kd => (kd.1, iocDefToJs kd.2))) =
          (kd.1, fvTraverse (iocDefToJs kd.2)) ::
            fvTraverseFields (p.map (fun kd => (kd.1, iocDefToJs kd.2))) := rfl
      rw [List.map_cons, he, fvTraverse_iocDefToJs kd.2 h1, ih h2]

theorem fvTraverse_prefsToJs {p : Prefs} (hp : prefsUrlsValid p = true) :
    fvTraverse (prefsToJs p) = prefsToJs p := by
  rw [prefsToJs]
  have he : fvTraverse (.obj (p.map (fun kd => (kd.1, iocDefToJs kd.2)))) =
      .obj (fvTraverseFields (p.map (fun kd => (kd.1, iocDefToJs kd.2)))) := rfl
  rw [he, fvTraverseFields_prefsToJs p hp]
theorem not_mem_of_contains_false {l : List String} {a : String}
    (h : l.contains a = false) : a ∉ l := by
  intro hm
  rw [List.contains_eq_any_beq] at h
  have h2 : l.any (fun x => a == x) = true := List.any_eq_true.mpr ⟨a, hm, beq_self_eq_true a⟩
  rw [h] at h2
  cases h2

theorem distinctNames_cons {n : String} {ns : List String}
    (h : distinctNames (n :: ns) = true) : n ∉ ns ∧ distinctNames ns = true := by
  rw [distinctNames] at h
  rcases Bool.and_eq_true_iff.mp h with ⟨h1, h2⟩
  exact ⟨not_mem_of_contains_false (by simpa using h1), h2⟩

theorem jsGet_flagToJs_name (f : PFlag) : jsGet (flagToJs f) "name" = some (.str f.name) := by
  cases f with
  | mk n v s => cases s <;> rfl

theorem jsGet_flagToJs_value (f : PFlag) :
    jsGet (flagToJs f) "value" = some (.boolV f.value) := by
  cases f with
  | mk n v s => cases s <;> rfl

theorem findFlagObj_cons_hit {g : PFlag} {rest : List JsVal} {n : String} (h : g.name = n) :
    findFlagObj (some (flagToJs g :: rest)) n = some (flagToJs g) := by
  simp [findFlagObj, List.find?, jsGet_flagToJs_name, h]

theorem findFlagObj_cons_skip {g : PFlag} {rest : List JsVal} {n : String} (h : g.name ≠ n) :
    findFlagObj (some (flagToJs g :: rest)) n = findFlagObj (some rest) n := by
  simp [findFlagObj, List.find?, jsGet_flagToJs_name, beq_eq_false_iff_ne.mpr h]

theorem cleanFlag_name (r : Option (List JsVal)) (d : PFlag) :
    (cleanFlag r d).name = d.name := by
  cases d with
  | mk n v s => cases s <;> rfl

theorem cleanFlag_skip_head {g : PFlag} {rest : List JsVal} {d : PFlag}
    (h : d.name ≠ g.name) :
    cleanFlag (some (flagToJs g :: rest)) d = cleanFlag (some rest) d := by
  cases d with
  | mk n dv dsub =>
      have hfind : findFlagObj (some (flagToJs g :: rest)) n = findFlagObj (some rest) n :=
        findFlagObj_cons_skip (fun he => h (by simp [PFlag.name]; exact he.symm))
      cases dsub with
      | none => simp [cleanFlag, hfind]
      | some ds => simp [cleanFlag, hfind]

theorem cleanFlags_skip_head {g : PFlag} {rest : List JsVal} :
    ∀ {ds : List PFlag}, (∀ d ∈ ds, d.name ≠ g.name) →
      cleanFlags (some (flagToJs g :: rest)) ds = cleanFlags (some rest) ds := by
  intro ds
  induction ds with
  | nil => intro _; rfl
  | cons d ds ih =>
      intro h
      rw [cleanFlags, cleanFlags, cleanFlag_skip_head (h d (by simp)),
        ih (fun d' hd' => h d' (by simp [hd']))]
theorem ndFlags_cons {d : PFlag} {ds : List PFlag} (h : ndFlags (d :: ds) = true) :
    ndFlag d = true ∧ ndFlags ds = true := by
  rw [ndFlags] at h
  exact Bool.and_eq_true_iff.mp h

theorem ndFlag_some {n : String} {v : Bool} {l : List PFlag}
    (h : ndFlag (.mk n v (some l)) = true) :
    distinctNames (l.map PFlag.name) = true ∧ ndFlags l = true := by
  rw [ndFlag] at h
  exact Bool.and_eq_true_iff.mp h

mutual

theorem cleanFlag_round : ∀ (d : PFlag) (r : Option (List JsVal)) (rest : List JsVal),
    ndFlag d = true →
    cleanFlag (some (flagToJs (cleanFlag r d) :: rest)) d = cleanFlag r d
  | .mk n dv none, r, rest, _ => by
      obtain ⟨b, hb⟩ : ∃ b, cleanFlag r (.mk n dv none) = .mk n b none := ⟨_, rfl⟩
      rw [hb]
      have hfind : findFlagObj (some (flagToJs (.mk n b none) :: rest)) n =
          some (flagToJs (.mk n b none)) := findFlagObj_cons_hit rfl
      simp [cleanFlag, hfind, jsGet_flagToJs_value, PFlag.value]
  | .mk n dv (some dsubs), r, rest, h => by
      rcases ndFlag_some h with ⟨h1, h2⟩
      obtain ⟨b, r', hb⟩ :
          ∃ b r', cleanFlag r (.mk n dv (some dsubs)) = .mk n b (some (cleanFlags r' dsubs)) :=
        ⟨_, _, rfl⟩
      rw [hb]
      have hfind : findFlagObj
          (some (flagToJs (.mk n b (some (cleanFlags r' dsubs))) :: rest)) n =
          some (flagToJs (.mk n b (some (cleanFlags r' dsubs)))) := findFlagObj_cons_hit rfl
      have hsub : jsGet (flagToJs (.mk n b (some (cleanFlags r' dsubs)))) "subFlags" =
          some (.arr (flagsToJs (cleanFlags r' dsubs))) := rfl
      simp [cleanFlag, hfind, jsGet_flagToJs_value, hsub, PFlag.value,
        cleanFlags_round dsubs r' h1 h2]

theorem cleanFlags_round : ∀ (ds : List PFlag) (r : Option (List JsVal)),
    distinctNames (ds.map PFlag.name) = true → ndFlags ds = true →
    cleanFlags (some (flagsToJs (cleanFlags r ds))) ds = cleanFlags r ds
  | [], _, _, _ => rfl
  | d :: ds, r, hdn, hnf => by
      rcases ndFlags_cons hnf with ⟨hnd1, hnd2⟩
      rw [List.map_cons] at hdn
      rcases distinctNames_cons hdn with ⟨hd1, hd2⟩
      have hc : cleanFlags r (d :: ds) = cleanFlag r d :: cleanFlags r ds := rfl
      have hf : flagsToJs (cleanFlag r d :: cleanFlags r ds) =
          flagToJs (cleanFlag r d) :: flagsToJs (cleanFlags r ds) := rfl
      rw [hc, hf]
      rw [show cleanFlags
            (some (flagToJs (cleanFlag r d) :: flagsToJs (cleanFlags r ds))) (d :: ds) =
          cleanFlag (some (flagToJs (cleanFlag r d) :: flagsToJs (cleanFlags r ds))) d ::
            cleanFlags (some (flagToJs (cleanFlag r d) :: flagsToJs (cleanFlags r ds))) ds
          from rfl]
      have hskip : ∀ d' ∈ ds, d'.name ≠ (cleanFlag r d).name := by
        intro d' hd'
        rw [cleanFlag_name]
        intro he
        exact hd1 (he ▸ List.mem_map_of_mem PFlag.name hd')
      rw [cleanFlag_round d r _ hnd1, cleanFlags_skip_head hskip,
        cleanFlags_round ds r hd2 hnd2]

end
theorem filterMap_map_str : ∀ l : List String,
    (l.map JsVal.str).filterMap (fun x => match x with | .str s => some s | _ => none) = l
  | [] => rfl
  | s :: l => by
      rw [List.map_cons, List.filterMap_cons]
      simp only
      rw [filterMap_map_str l]

theorem cleanIOCDef_round (rv : Option JsVal) (dflt : IOCDefinition)
    (h1 : distinctNames (dflt.flags.map PFlag.name) = true)
    (h2 : ndFlags dflt.flags = true) :
    cleanIOCDef (some (iocDefToJs (cleanIOCDef rv dflt))) dflt = cleanIOCDef rv dflt := by
  obtain ⟨r', hfl⟩ : ∃ r', (cleanIOCDef rv dflt).flags = cleanFlags r' dflt.flags := ⟨_, rfl⟩
  have he : cleanIOCDef (some (iocDefToJs (cleanIOCDef rv dflt))) dflt =
      { name := (cleanIOCDef rv dflt).name,
        active := (cleanIOCDef rv dflt).active,
        flags := cleanFlags (some (flagsToJs (cleanIOCDef rv dflt).flags)) dflt.flags,
        urls := ((cleanIOCDef rv dflt).urls.map JsVal.str).filterMap
          (fun x => match x with | .str s => some s | _ => none),
        version := (cleanIOCDef rv dflt).version } := rfl
  rw [he, hfl, cleanFlags_round dflt.flags r' h1 h2, ← hfl, filterMap_map_str]

theorem lookupField_cons_hit {k : String} {w : JsVal} {fs : List (String × JsVal)} :
    lookupField ((k, w) :: fs) k = some w := by
  rw [lookupField, if_pos (beq_self_eq_true k)]

theorem lookupField_cons_skip {k0 k : String} {w : JsVal} {fs : List (String × JsVal)}
    (h : k0 ≠ k) : lookupField ((k0, w) :: fs) k = lookupField fs k := by
  rw [lookupField, if_neg (by simp [beq_eq_false_iff_ne.mpr h])]

theorem lookup_prefsToJs_cleanObject (raw : JsVal) :
    ∀ (d : Prefs), distinctNames (keysOf d) = true →
      ∀ kd ∈ d, lookupField ((cleanObject raw d).map (fun kd => (kd.1, iocDefToJs kd.2)))
          kd.1 = some (iocDefToJs (cleanIOCDef (jsGet raw kd.1) kd.2)) := by
  intro d
  induction d with
  | nil => intro _ kd hkd; cases hkd
  | cons d0 drest ih =>
      intro hk kd hkd
      rcases distinctNames_cons hk with ⟨hk1, hk2⟩
      have hco : cleanObject raw (d0 :: drest) =
          (d0.1, cleanIOCDef (jsGet raw d0.1) d0.2) :: cleanObject raw drest := rfl
      rw [hco, List.map_cons]
      rcases List.mem_cons.mp hkd with rfl | hmem
      · exact lookupField_cons_hit
      · have hne : d0.1 ≠ kd.1 := by
          intro he
          exact hk1 (he ▸ List.mem_map_of_mem Prod.fst hmem)
        rw [lookupField_cons_skip hne]
        exact ih hk2 kd hmem

theorem cleanObject_round (raw : JsVal) :
    ∀ (d : Prefs), distinctNames (keysOf d) = true →
      (∀ kd ∈ d, distinctNames (kd.2.flags.map PFlag.name) = true ∧
        ndFlags kd.2.flags = true) →
      cleanObject (prefsToJs (cleanObject raw d)) d = cleanObject raw d := by
  intro d hk hnd
  have hgen : ∀ kd ∈ d, jsGet (prefsToJs (cleanObject raw d)) kd.1 =
      some (iocDefToJs (cleanIOCDef (jsGet raw kd.1) kd.2)) := by
    intro kd hkd
    have : jsGet (prefsToJs (cleanObject raw d)) kd.1 =
        lookupField ((cleanObject raw d).map (fun kd => (kd.1, iocDefToJs kd.2))) kd.1 := rfl
    rw [this]
    exact lookup_prefsToJs_cleanObject raw d hk kd hkd
  show d.map (fun kd => (kd.1, cleanIOCDef (jsGet (prefsToJs (cleanObject raw d)) kd.1) kd.2)) =
    d.map (fun kd => (kd.1, cleanIOCDef (jsGet raw kd.1) kd.2))
  apply List.map_eq_map_iff.mpr
  intro kd hkd
  rw [hgen kd hkd, cleanIOCDef_round (jsGet raw kd.1) kd.2 (hnd kd hkd).1 (hnd kd hkd).2]

/-- C2: the reconciliation used on both the load and save paths — urls
filtering followed by cleanObject against defaultPreferences — is
idempotent: applied to its own (serialised) output it returns the same
configuration, both at the typed level and at the persisted-object
level. -/
theorem c2_reconcile_idempotent :
    (∀ x : JsVal, reconcile (reconcileJs x) = reconcile x) ∧
    (∀ x : JsVal, reconcileJs (reconcileJs x) = reconcileJs x) := by
  have key : ∀ x : JsVal, reconcile (reconcileJs x) = reconcile x := by
    intro x
    have hv : prefsUrlsValid (reconcile x) = true :=
      prefsUrlsValid_cleanObject (urlsClean_fvTraverse x) (by decide)
    show cleanObject (fvTraverse (prefsToJs (reconcile x))) defaultPreferences = reconcile x
    rw [fvTraverse_prefsToJs hv]
    exact cleanObject_round (fvTraverse x) defaultPreferences (by decide) (by decide)
  exact ⟨key, fun x => congrArg prefsToJs (key x)⟩
